import Mathlib

/-!
Verification development for the CL-splitting core of `split_cl.py`.

The shallow embedding below translates the `ChangeList` class and the
`SplitCLs` function of `split_cl.py` into Lean.  Mutable Python objects
become values threaded through the computation; the `assert` in
`_EnsureOwners` becomes the `Except Unit` error monad; file paths are
repository-relative paths represented as their list of path components
(so `os.path.dirname` is `List.dropLast`).

The candidate container `third_party.pygtrie` is not part of the sources
under verification, so it is modelled from the spec (section 4.1): an
ordered map keyed by path-component sequences, with sorted iteration,
insert-or-replace, delete, lookup, and enumeration of keys at or below a
given path.  We realize it as a sorted association list.
-/

deriving instance DecidableEq for Except

/-- Repository-relative path, split into its path components. -/
abbrev SplPath := List String

/-- Model of an `AffectedFile`: its `LocalPath()` (as components) and the
list of `(added, removed)` byte pairs returned by `ChangeSizeInBytes()`. -/
structure AffectedFile where
  path : SplPath
  changeSizeInBytes : List (Nat × Nat)
deriving DecidableEq

/-- Model of the owners database collaborator: `all_possible_owners`
returns the keys of the dict for a set of paths and an author, and
`files_not_covered_by` returns the paths not covered by a set of owners.
Both are opaque deterministic functions supplied by the caller. -/
structure OwnersDatabase where
  all_possible_owners : Finset SplPath → Option String → Finset String
  files_not_covered_by : Finset SplPath → Finset String → Finset SplPath

/-- Model of the `ChangeList` class: its `_path`, `_files` and the lazily
memoized `_owners` (the Python `None` is `none`).  The `_owners_db` and
`_author` fields are constant for a whole run, so they are passed to each
operation instead of being stored. -/
structure ChangeList where
  path : SplPath
  files : Finset AffectedFile
  owners : Option (Finset String)
deriving DecidableEq

/-- Python truthiness of the `_owners` field: `None` and the empty set are
both falsy in `if not self._owners`. -/
def falsyOwners : Option (Finset String) → Bool
  | none => true
  | some s => decide (s = ∅)

/-- The owner set computed by the body of `ChangeList._EnsureOwners`:
collect the local paths of the files (or the candidate path when there
are no files), then keep each possible owner that covers all of them. -/
def computedOwners (db : OwnersDatabase) (author : Option String)
    (cl : ChangeList) : Finset String :=
  let fpaths0 : Finset SplPath := cl.files.image AffectedFile.path
  let fpaths : Finset SplPath := if fpaths0 = ∅ then {cl.path} else fpaths0
  let possible := db.all_possible_owners fpaths author
  possible.filter (fun o => (db.files_not_covered_by fpaths {o}).card = 0)

/-- Model of `ChangeList._EnsureOwners`: when `_owners` is falsy, compute
the owner set and `assert` that it is non-empty (a failed assert is
`Except.error`). -/
def ChangeList.EnsureOwners (db : OwnersDatabase) (author : Option String)
    (cl : ChangeList) : Except Unit ChangeList :=
  if falsyOwners cl.owners then
    if computedOwners db author cl = ∅ then .error ()
    else .ok { cl with owners := some (computedOwners db author cl) }
  else .ok cl

/-- Model of `ChangeList.GetOwners`: ensure owners, then return the
(updated) object together with its owner set. -/
def ChangeList.GetOwners (db : OwnersDatabase) (author : Option String)
    (cl : ChangeList) : Except Unit (ChangeList × Finset String) :=
  match cl.EnsureOwners db author with
  | .error e => .error e
  | .ok cl2 => .ok (cl2, cl2.owners.getD ∅)

/-- Model of `ChangeList.GetCommonOwners`: the intersection of the two
owner sets; returns both updated objects since `GetOwners` memoizes. -/
def ChangeList.GetCommonOwners (db : OwnersDatabase) (author : Option String)
    (self other : ChangeList) : Except Unit (ChangeList × ChangeList × Finset String) :=
  match self.GetOwners db author with
  | .error e => .error e
  | .ok (self2, s1) =>
    match other.GetOwners db author with
    | .error e => .error e
    | .ok (other2, s2) => .ok (self2, other2, s1 ∩ s2)

/-- Model of `ChangeList.HaveCommonOwners`: `len(common) > 0`. -/
def ChangeList.HaveCommonOwners (db : OwnersDatabase) (author : Option String)
    (self other : ChangeList) : Except Unit (ChangeList × ChangeList × Bool) :=
  match ChangeList.GetCommonOwners db author self other with
  | .error e => .error e
  | .ok (self2, other2, common) => .ok (self2, other2, decide (0 < common.card))

/-- Model of `ChangeList.Merge`: set `_owners` to `GetCommonOwners(other)`
(recomputed at merge time, which reuses the memoized values when present)
and union the file sets. -/
def ChangeList.Merge (db : OwnersDatabase) (author : Option String)
    (self other : ChangeList) : Except Unit ChangeList :=
  match ChangeList.GetCommonOwners db author self other with
  | .error e => .error e
  | .ok (self2, other2, common) =>
    .ok { self2 with owners := some common, files := self2.files ∪ other2.files }

/-- Model of `ChangeList.GetChangeSizeInBytes`: the sum over all files of
`c[0] + c[1]` over the byte-change pairs. -/
def ChangeList.GetChangeSizeInBytes (cl : ChangeList) : Nat :=
  cl.files.sum (fun f => (f.changeSizeInBytes.map (fun c => c.1 + c.2)).sum)

/-- The target CL size in changed bytes (`max_cl_size` in `SplitCLs`). -/
def max_cl_size : Nat := 1000

/-- Strict lexicographic order on character lists by code point, matching
the ordering of Python strings. -/
def charListLt : List Char → List Char → Bool
  | [], [] => false
  | [], _ :: _ => true
  | _ :: _, [] => false
  | a :: as, b :: bs =>
    if a.toNat < b.toNat then true
    else if b.toNat < a.toNat then false
    else charListLt as bs

/-- Strict order on path components (strings), by code points. -/
def strLt (a b : String) : Bool := charListLt a.data b.data

/-- Strict lexicographic order on component paths, the sorted iteration
order of the candidate trie (prefixes come first). -/
def pathLt : SplPath → SplPath → Bool
  | [], [] => false
  | [], _ :: _ => true
  | _ :: _, [] => false
  | a :: as, b :: bs => if strLt a b then true else if strLt b a then false else pathLt as bs

/-- Modelled from the spec: the PathTrie of candidates (section 4.1),
realized as an association list sorted by `pathLt` on the keys; the
`pygtrie` implementation itself is not among the sources.  Lookup by exact
key. -/
def trieGet (c : List (SplPath × ChangeList)) (k : SplPath) : Option ChangeList :=
  match c.find? (fun e => decide (e.1 = k)) with
  | none => none
  | some e => some e.2

/-- Modelled from the spec: PathTrie insert-or-replace at an exact key,
keeping the list sorted. -/
def trieInsert (k : SplPath) (v : ChangeList) :
    List (SplPath × ChangeList) → List (SplPath × ChangeList)
  | [] => [(k, v)]
  | e :: rest =>
    if k = e.1 then (k, v) :: rest
    else if pathLt k e.1 then (k, v) :: e :: rest
    else e :: trieInsert k v rest

/-- Modelled from the spec: PathTrie deletion of the entry at an exact
key (no-op when absent). -/
def trieErase (k : SplPath) (c : List (SplPath × ChangeList)) :
    List (SplPath × ChangeList) :=
  c.filter (fun e => decide (e.1 ≠ k))

/-- Modelled from the spec: `candidates.keys(path)` — all keys of the trie
having `p` as a (component-wise) prefix, in sorted order. -/
def trieKeysWith (c : List (SplPath × ChangeList)) (p : SplPath) : List SplPath :=
  (c.filter (fun e => p.isPrefixOf e.1)).map (fun e => e.1)

/-- The `sub_cls` computation of `SplitCLs`: the number of keys with the
given prefix, minus one (for the candidate itself). -/
def subCandidateCount (c : List (SplPath × ChangeList)) (p : SplPath) : Nat :=
  (trieKeysWith c p).length - 1

/-- The evolving state of `SplitCLs`: the candidate trie and the list of
already-emitted change lists. -/
structure SplitState where
  candidates : List (SplPath × ChangeList)
  changeLists : List ChangeList
deriving DecidableEq

/-- The tail of the merge attempt, once the parent candidate has been
found or created: test for common owners, and on success delete the
child, merge it into the parent and emit the parent when it exceeds
`max_cl_size` (lines 241-258 of `split_cl.py`).  `cands1` is the trie
with the parent candidate present, `parent_cl` that candidate. -/
def mergeWithParent (db : OwnersDatabase) (author : Option String) (st : SplitState)
    (edited : Bool) (key : SplPath) (candidate : ChangeList) (parentPath : SplPath)
    (cands1 : List (SplPath × ChangeList)) (parent_cl : ChangeList) :
    Except Unit (SplitState × Bool) :=
  match ChangeList.HaveCommonOwners db author parent_cl candidate with
  | .error e => .error e
  | .ok (parent2, cand2, hasCommon) =>
    if hasCommon then
      match ChangeList.Merge db author parent2 cand2 with
      | .error e => .error e
      | .ok merged =>
        if max_cl_size < merged.GetChangeSizeInBytes then
          .ok (⟨trieErase parentPath (trieInsert parentPath merged (trieErase key cands1)),
                st.changeLists ++ [merged]⟩, true)
        else
          .ok (⟨trieInsert parentPath merged (trieErase key cands1), st.changeLists⟩, true)
    else
      .ok (⟨trieInsert key cand2 (trieInsert parentPath parent2 cands1),
            st.changeLists⟩, edited)

/-- The body of the merge attempt for one candidate (lines 231-258 of
`split_cl.py`): find the parent candidate, creating an empty one when
absent, then proceed with `mergeWithParent`. -/
def mergeAttempt (db : OwnersDatabase) (author : Option String) (st : SplitState)
    (edited : Bool) (key : SplPath) (candidate : ChangeList) :
    Except Unit (SplitState × Bool) :=
  match trieGet st.candidates key.dropLast with
  | some p => mergeWithParent db author st edited key candidate key.dropLast st.candidates p
  | none =>
    mergeWithParent db author st edited key candidate key.dropLast
      (trieInsert key.dropLast ⟨key.dropLast, ∅, none⟩ st.candidates)
      ⟨key.dropLast, ∅, none⟩

/-- Processing of one iteration of `for item in candidates.items()`: skip
entries that are gone, skip candidates that still have sub-candidates,
skip top-level candidates (`len(parent_path) < 1`), otherwise attempt the
merge. -/
def processItem (db : OwnersDatabase) (author : Option String)
    (acc : SplitState × Bool) (key : SplPath) : Except Unit (SplitState × Bool) :=
  match trieGet acc.1.candidates key with
  | none => .ok acc
  | some candidate =>
    if subCandidateCount acc.1.candidates key = 0 then
      if key.dropLast = [] then .ok acc
      else mergeAttempt db author acc.1 acc.2 key candidate
    else .ok acc

/-- One full pass of the inner `for` loop of `SplitCLs`, over the keys
present at the start of the pass, with `edited` starting `False`. -/
def runPass (db : OwnersDatabase) (author : Option String) (st : SplitState) :
    Except Unit (SplitState × Bool) :=
  List.foldlM (processItem db author) (st, false) (st.candidates.map (fun e => e.1))

/-- The `while edited` loop of `SplitCLs`, with explicit fuel.  The second
component of the result is `true` when the loop genuinely reached a pass
that made no merge (the fixed point), `false` when the fuel ran out. -/
def mergeLoop (db : OwnersDatabase) (author : Option String) :
    Nat → SplitState → Except Unit (SplitState × Bool)
  | 0, st => .ok (st, false)
  | fuel + 1, st =>
    match runPass db author st with
    | .error e => .error e
    | .ok (st2, edited) =>
      if edited then mergeLoop db author fuel st2 else .ok (st2, true)

/-- Step 1 of `SplitCLs`: one singleton CL candidate per affected file,
keyed by the file path (a later file with the same path overwrites an
earlier one, as in the trie assignment). -/
def seedCandidates (files : List AffectedFile) : List (SplPath × ChangeList) :=
  files.foldl (fun c f => trieInsert f.path ⟨f.path, {f}, none⟩ c) []

/-- The non-empty component prefixes of a path (the path itself
included). -/
def ancestorsOf (p : SplPath) : Finset SplPath :=
  ((List.range p.length).map (fun i => p.take (i + 1))).toFinset

/-- All anchor paths that are present in the trie or could ever be created
by the merge loop: the ancestor closure of the present keys.  Every merge
strictly shrinks this set, which bounds the number of editing passes. -/
def anchorClosure (c : List (SplPath × ChangeList)) : Finset SplPath :=
  c.foldr (fun e acc => ancestorsOf e.1 ∪ acc) ∅

/-- Fuel that always suffices for `mergeLoop` (proved below). -/
def splitFuel (c : List (SplPath × ChangeList)) : Nat :=
  (anchorClosure c).card + 1

/-- Model of `SplitCLs`: seed one candidate per file, run the bottom-up
merge loop to its fixed point, then drain all remaining candidates (in
sorted order) after the loop-emitted ones. -/
def SplitCLs (db : OwnersDatabase) (author : Option String)
    (files : List AffectedFile) : Except Unit (List ChangeList) :=
  let cands := seedCandidates files
  match mergeLoop db author (splitFuel cands) ⟨cands, []⟩ with
  | .error e => .error e
  | .ok (st, _) => .ok (st.changeLists ++ st.candidates.map (fun e => e.2))

/-! Concrete inputs used by the witness and counterexample theorems. -/

/-- Concrete file `a/x.txt` with 50 changed bytes (spec scenario). -/
def fileAX : AffectedFile := ⟨["a", "x.txt"], [(50, 0)]⟩

/-- Concrete file `a/y.txt` with 60 changed bytes (spec scenario). -/
def fileAY : AffectedFile := ⟨["a", "y.txt"], [(60, 0)]⟩

/-- Concrete file `b/z.txt` with 2000 changed bytes (spec scenario). -/
def fileBZ : AffectedFile := ⟨["b", "z.txt"], [(2000, 0)]⟩

/-- Concrete file `a/x.txt` with 10 changed bytes. -/
def fileAX10 : AffectedFile := ⟨["a", "x.txt"], [(10, 0)]⟩

/-- Concrete file `a/x.txt` with 20 changed bytes (same path, distinct record). -/
def fileAX20 : AffectedFile := ⟨["a", "x.txt"], [(20, 0)]⟩

/-- Concrete file `a/y.txt` with 10 changed bytes. -/
def fileAY10 : AffectedFile := ⟨["a", "y.txt"], [(10, 0)]⟩

/-- Concrete file `a/b.txt` with 10 changed bytes. -/
def fileAB10 : AffectedFile := ⟨["a", "b.txt"], [(10, 0)]⟩

/-- Oracle for which `alice` owns and covers everything. -/
def dbAlice : OwnersDatabase := ⟨fun _ _ => {"alice"}, fun _ _ => ∅⟩

/-- Oracle for which the directory `a` is owned by `bob` and everything
else by `alice`, with full coverage. -/
def dbDir : OwnersDatabase :=
  ⟨fun s _ => if s = ({["a"]} : Finset SplPath) then {"bob"} else {"alice"}, fun _ _ => ∅⟩

/-- Oracle for which `alice` and `bob` are possible owners of everything,
but `bob` does not cover the pair `{a/x.txt, a/y.txt}` taken together
(while covering each of the two alone). -/
def dbPair : OwnersDatabase :=
  ⟨fun _ _ => {"alice", "bob"},
   fun s os =>
     if os = ({"bob"} : Finset String) ∧ s = ({["a", "x.txt"], ["a", "y.txt"]} : Finset SplPath)
     then {(["a", "x.txt"] : SplPath)} else ∅⟩

/-! Basic facts about the path order. -/

theorem charListLt_irrefl : ∀ l : List Char, charListLt l l = false := by
  intro l
  induction l with
  | nil => rfl
  | cons a as ih => simp [charListLt, ih]

theorem charListLt_trans : ∀ a b c : List Char,
    charListLt a b = true → charListLt b c = true → charListLt a c = true := by
  intro a
  induction a with
  | nil =>
    intro b c h1 h2
    cases b with
    | nil => simp [charListLt] at h1
    | cons y ys =>
      cases c with
      | nil => simp [charListLt] at h2
      | cons z zs => simp [charListLt]
  | cons x xs ih =>
    intro b c h1 h2
    cases b with
    | nil => simp [charListLt] at h1
    | cons y ys =>
      cases c with
      | nil => simp [charListLt] at h2
      | cons z zs =>
        simp only [charListLt] at h1 h2 ⊢
        rcases Nat.lt_trichotomy x.toNat y.toNat with hxy | hxy | hxy
        · rcases Nat.lt_trichotomy y.toNat z.toNat with hyz | hyz | hyz
          · simp [Nat.lt_trans hxy hyz]
          · simp [hyz ▸ hxy]
          · simp [Nat.lt_asymm hyz, hyz] at h2
        · rcases Nat.lt_trichotomy y.toNat z.toNat with hyz | hyz | hyz
          · simp [hxy, hyz]
          · simp only [hxy, hyz, lt_self_iff_false, if_false] at h1 h2 ⊢
            exact ih ys zs h1 h2
          · simp [Nat.lt_asymm hyz, hyz] at h2
        · simp [Nat.lt_asymm hxy, hxy] at h1

theorem charListLt_total : ∀ a b : List Char,
    a = b ∨ charListLt a b = true ∨ charListLt b a = true := by
  intro a
  induction a with
  | nil =>
    intro b
    cases b with
    | nil => exact Or.inl rfl
    | cons y ys => exact Or.inr (Or.inl (by simp [charListLt]))
  | cons x xs ih =>
    intro b
    cases b with
    | nil => exact Or.inr (Or.inr (by simp [charListLt]))
    | cons y ys =>
      rcases Nat.lt_trichotomy x.toNat y.toNat with hxy | hxy | hxy
      · exact Or.inr (Or.inl (by simp [charListLt, hxy]))
      · have hx : x = y := Char.eq_of_val_eq (UInt32.ext hxy)
        rcases ih ys with h | h | h
        · exact Or.inl (by rw [hx, h])
        · exact Or.inr (Or.inl (by simp [charListLt, hx, Nat.lt_irrefl, h]))
        · exact Or.inr (Or.inr (by simp [charListLt, hx, Nat.lt_irrefl, h]))
      · exact Or.inr (Or.inr (by simp [charListLt, hxy]))

theorem strLt_irrefl (s : String) : strLt s s = false := charListLt_irrefl s.data

theorem strLt_trans {a b c : String} (h1 : strLt a b = true) (h2 : strLt b c = true) :
    strLt a c = true := charListLt_trans a.data b.data c.data h1 h2

theorem strLt_total (a b : String) : a = b ∨ strLt a b = true ∨ strLt b a = true := by
  rcases charListLt_total a.data b.data with h | h | h
  · refine Or.inl ?_
    cases a with
    | mk d1 => cases b with
      | mk d2 => exact congrArg String.mk h
  · exact Or.inr (Or.inl h)
  · exact Or.inr (Or.inr h)

theorem strLt_asymm {a b : String} (h : strLt a b = true) : strLt b a = false := by
  by_contra hc
  rw [Bool.not_eq_false] at hc
  have := strLt_trans h hc
  rw [strLt_irrefl] at this
  exact absurd this (by simp)

theorem pathLt_irrefl : ∀ p : SplPath, pathLt p p = false := by
  intro p
  induction p with
  | nil => rfl
  | cons a as ih => simp [pathLt, strLt_irrefl, ih]

theorem pathLt_trans : ∀ a b c : SplPath,
    pathLt a b = true → pathLt b c = true → pathLt a c = true := by
  intro a
  induction a with
  | nil =>
    intro b c h1 h2
    cases b with
    | nil => simp [pathLt] at h1
    | cons y ys =>
      cases c with
      | nil => simp [pathLt] at h2
      | cons z zs => simp [pathLt]
  | cons x xs ih =>
    intro b c h1 h2
    cases b with
    | nil => simp [pathLt] at h1
    | cons y ys =>
      cases c with
      | nil => simp [pathLt] at h2
      | cons z zs =>
        simp only [pathLt] at h1 h2 ⊢
        rcases strLt_total x y with hxy | hxy | hxy
        · subst hxy
          simp only [strLt_irrefl, Bool.false_eq_true, if_false] at h1
          rcases strLt_total x z with hxz | hxz | hxz
          · subst hxz
            simp only [strLt_irrefl, Bool.false_eq_true, if_false] at h2 ⊢
            exact ih ys zs h1 h2
          · simp [hxz]
          · simp [strLt_asymm hxz, hxz] at h2
        · rcases strLt_total y z with hyz | hyz | hyz
          · subst hyz
            simp [hxy]
          · simp [strLt_trans hxy hyz]
          · simp [strLt_asymm hyz, hyz] at h2
        · simp [strLt_asymm hxy, hxy] at h1

theorem pathLt_total : ∀ a b : SplPath, a = b ∨ pathLt a b = true ∨ pathLt b a = true := by
  intro a
  induction a with
  | nil =>
    intro b
    cases b with
    | nil => exact Or.inl rfl
    | cons y ys => exact Or.inr (Or.inl (by simp [pathLt]))
  | cons x xs ih =>
    intro b
    cases b with
    | nil => exact Or.inr (Or.inr (by simp [pathLt]))
    | cons y ys =>
      rcases strLt_total x y with hxy | hxy | hxy
      · subst hxy
        rcases ih ys with h | h | h
        · exact Or.inl (by rw [h])
        · exact Or.inr (Or.inl (by simp [pathLt, strLt_irrefl, h]))
        · exact Or.inr (Or.inr (by simp [pathLt, strLt_irrefl, h]))
      · exact Or.inr (Or.inl (by simp [pathLt, hxy]))
      · exact Or.inr (Or.inr (by simp [pathLt, hxy]))

theorem pathLt_asymm {a b : SplPath} (h : pathLt a b = true) : pathLt b a = false := by
  by_contra hc
  rw [Bool.not_eq_false] at hc
  have := pathLt_trans a b a h hc
  rw [pathLt_irrefl] at this
  exact absurd this (by simp)

theorem pathLt_ne {a b : SplPath} (h : pathLt a b = true) : a ≠ b := by
  intro he
  subst he
  rw [pathLt_irrefl] at h
  exact absurd h (by simp)

/-! Facts about the candidate trie (sorted association list). -/

/-- Well-formedness of the candidate trie: keys strictly sorted. -/
def trieSorted (c : List (SplPath × ChangeList)) : Prop :=
  c.Pairwise (fun a b => pathLt a.1 b.1 = true)

theorem mem_trieInsert {k : SplPath} {v : ChangeList} :
    ∀ {c : List (SplPath × ChangeList)} {e}, e ∈ trieInsert k v c → e = (k, v) ∨ e ∈ c := by
  intro c
  induction c with
  | nil => intro e he; simp [trieInsert] at he; exact Or.inl he
  | cons f rest ih =>
    intro e he
    rw [trieInsert] at he
    by_cases h1 : k = f.1
    · rw [if_pos h1] at he
      rcases List.mem_cons.mp he with h | h
      · exact Or.inl h
      · exact Or.inr (List.mem_cons_of_mem f h)
    · rw [if_neg h1] at he
      by_cases h2 : pathLt k f.1 = true
      · rw [if_pos h2] at he
        rcases List.mem_cons.mp he with h | h
        · exact Or.inl h
        · exact Or.inr h
      · rw [if_neg h2] at he
        rcases List.mem_cons.mp he with h | h
        · exact Or.inr (h ▸ List.mem_cons_self f rest)
        · rcases ih h with h3 | h3
          · exact Or.inl h3
          · exact Or.inr (List.mem_cons_of_mem f h3)

theorem mem_trieErase {k : SplPath} {c : List (SplPath × ChangeList)} {e} :
    e ∈ trieErase k c ↔ e ∈ c ∧ e.1 ≠ k := by
  simp [trieErase, List.mem_filter]

theorem trieErase_of_absent {k : SplPath} {c : List (SplPath × ChangeList)}
    (h : ∀ e ∈ c, e.1 ≠ k) : trieErase k c = c := by
  rw [trieErase, List.filter_eq_self]
  intro e he
  simpa using h e he

theorem trieGet_some {c : List (SplPath × ChangeList)} {k : SplPath} {v : ChangeList}
    (h : trieGet c k = some v) : (k, v) ∈ c := by
  rw [trieGet] at h
  cases hf : c.find? (fun e => decide (e.1 = k)) with
  | none => rw [hf] at h; exact absurd h (by simp)
  | some e =>
    rw [hf] at h
    have he1 := List.find?_some hf
    have he2 : e ∈ c := List.mem_of_find?_eq_some hf
    have hk : e.1 = k := of_decide_eq_true he1
    have hv : e.2 = v := by simpa using h
    have he : e = (k, v) := Prod.ext hk hv
    exact he ▸ he2

theorem trieGet_none {c : List (SplPath × ChangeList)} {k : SplPath}
    (h : trieGet c k = none) : ∀ e ∈ c, e.1 ≠ k := by
  rw [trieGet] at h
  cases hf : c.find? (fun e => decide (e.1 = k)) with
  | some e => rw [hf] at h; exact absurd h (by simp)
  | none =>
    intro e he
    have := List.find?_eq_none.mp hf e he
    simpa using this

theorem trieSorted_insert {k : SplPath} {v : ChangeList} :
    ∀ {c : List (SplPath × ChangeList)}, trieSorted c → trieSorted (trieInsert k v c) := by
  intro c
  induction c with
  | nil => intro _; simp [trieInsert, trieSorted]
  | cons f rest ih =>
    intro hs
    rw [trieSorted, List.pairwise_cons] at hs
    rw [trieSorted, trieInsert]
    by_cases h1 : k = f.1
    · rw [if_pos h1]
      rw [List.pairwise_cons]
      exact ⟨fun b hb => h1 ▸ hs.1 b hb, hs.2⟩
    · rw [if_neg h1]
      by_cases h2 : pathLt k f.1 = true
      · rw [if_pos h2]
        rw [List.pairwise_cons]
        refine ⟨?_, ?_⟩
        · intro b hb
          rcases List.mem_cons.mp hb with h | h
          · rw [h]; exact h2
          · exact pathLt_trans k f.1 b.1 h2 (hs.1 b h)
        · rw [List.pairwise_cons]
          exact ⟨hs.1, hs.2⟩
      · rw [if_neg h2]
        rw [List.pairwise_cons]
        refine ⟨?_, ih hs.2⟩
        intro b hb
        rcases mem_trieInsert hb with h | h
        · rw [h]
          rcases pathLt_total k f.1 with h3 | h3 | h3
          · exact absurd h3 h1
          · exact absurd h3 h2
          · exact h3
        · exact hs.1 b h

theorem trieSorted_erase {k : SplPath} {c : List (SplPath × ChangeList)}
    (hs : trieSorted c) : trieSorted (trieErase k c) :=
  List.Pairwise.sublist (List.filter_sublist c) hs

theorem trieInsert_perm {k : SplPath} {v : ChangeList} :
    ∀ {c : List (SplPath × ChangeList)}, trieSorted c →
      (trieInsert k v c).Perm ((k, v) :: trieErase k c) := by
  intro c
  induction c with
  | nil => intro _; simp [trieInsert, trieErase]
  | cons f rest ih =>
    intro hs
    rw [trieSorted, List.pairwise_cons] at hs
    rw [trieInsert]
    by_cases h1 : k = f.1
    · rw [if_pos h1]
      have hnone : ∀ e ∈ rest, e.1 ≠ k := by
        intro e he hk
        have hlt : pathLt f.1 e.1 = true := hs.1 e he
        rw [hk, ← h1, pathLt_irrefl] at hlt
        simp at hlt
      have he : trieErase k (f :: rest) = rest := by
        rw [trieErase, List.filter_cons, if_neg (by simp [h1])]
        rw [show List.filter (fun e => decide (e.1 ≠ k)) rest = trieErase k rest from rfl,
          trieErase_of_absent hnone]
      rw [he]
    · rw [if_neg h1]
      by_cases h2 : pathLt k f.1 = true
      · rw [if_pos h2]
        have he : trieErase k (f :: rest) = f :: rest := by
          refine trieErase_of_absent ?_
          intro e he hk
          rcases List.mem_cons.mp he with h | h
          · exact h1 (by rw [← hk, h])
          · have hlt := pathLt_trans k f.1 e.1 h2 (hs.1 e h)
            rw [hk, pathLt_irrefl] at hlt
            simp at hlt
        rw [he]
      · rw [if_neg h2]
        have hf1 : f.1 ≠ k := fun hk => h1 hk.symm
        have he : trieErase k (f :: rest) = f :: trieErase k rest := by
          rw [trieErase, List.filter_cons, if_pos (by simpa using hf1)]
          rfl
        rw [he]
        exact ((ih hs.2).cons f).trans (List.Perm.swap (k, v) f (trieErase k rest))

theorem mem_perm_erase {k : SplPath} {v : ChangeList} :
    ∀ {c : List (SplPath × ChangeList)}, trieSorted c → (k, v) ∈ c →
      c.Perm ((k, v) :: trieErase k c) := by
  intro c
  induction c with
  | nil => intro _ hm; exact absurd hm (by simp)
  | cons f rest ih =>
    intro hs hm
    rw [trieSorted, List.pairwise_cons] at hs
    rcases List.mem_cons.mp hm with h | h
    · have hfk : f = (k, v) := h.symm
      subst hfk
      have hnone : ∀ e ∈ rest, e.1 ≠ k := by
        intro e he hk
        have hlt : pathLt (k, v).1 e.1 = true := hs.1 e he
        rw [hk] at hlt
        simp [pathLt_irrefl] at hlt
      rw [trieErase, List.filter_cons, if_neg (by simp)]
      rw [show List.filter (fun e => decide (e.1 ≠ k)) rest = trieErase k rest from rfl,
        trieErase_of_absent hnone]
    · have hfk : f.1 ≠ k := by
        intro hk
        have hlt := hs.1 (k, v) h
        rw [hk] at hlt
        simp [pathLt_irrefl] at hlt
      rw [trieErase, List.filter_cons, if_pos (by simpa using hfk)]
      refine ((ih hs.2 h).cons f).trans ?_
      exact List.Perm.swap (k, v) f (List.filter (fun e => decide (e.1 ≠ k)) rest)

theorem trieErase_comm {k1 k2 : SplPath} {c : List (SplPath × ChangeList)} :
    trieErase k1 (trieErase k2 c) = trieErase k2 (trieErase k1 c) := by
  simp [trieErase, List.filter_filter]
  congr 1
  funext e
  rw [Bool.and_comm]

theorem trieErase_insert_same {k : SplPath} {v : ChangeList} :
    ∀ {c : List (SplPath × ChangeList)}, trieErase k (trieInsert k v c) = trieErase k c := by
  intro c
  induction c with
  | nil => simp [trieInsert, trieErase]
  | cons f rest ih =>
    rw [trieInsert]
    by_cases h1 : k = f.1
    · rw [if_pos h1, trieErase, trieErase, List.filter_cons, List.filter_cons]
      rw [if_neg (by simp), if_neg (by simp [h1.symm])]
    · rw [if_neg h1]
      by_cases h2 : pathLt k f.1 = true
      · rw [if_pos h2, trieErase, List.filter_cons, if_neg (by simp)]
        rfl
      · rw [trieErase, trieErase, if_neg h2, List.filter_cons, List.filter_cons,
          if_pos (by simp; exact fun hk => h1 hk.symm), if_pos (by simp; exact fun hk => h1 hk.symm)]
        exact congrArg _ ih

/-! Facts about the owner computations. -/

theorem ensureOwners_ok {db : OwnersDatabase} {a : Option String} {cl cl2 : ChangeList}
    (h : ChangeList.EnsureOwners db a cl = .ok cl2) :
    cl2.files = cl.files ∧ cl2.path = cl.path ∧ ∃ s, cl2.owners = some s ∧ s.Nonempty := by
  rw [ChangeList.EnsureOwners] at h
  by_cases hf : falsyOwners cl.owners = true
  · rw [if_pos hf] at h
    by_cases hc : computedOwners db a cl = ∅
    · rw [if_pos hc] at h
      exact absurd h (by simp)
    · rw [if_neg hc] at h
      have h2 := Except.ok.inj h
      rw [← h2]
      exact ⟨rfl, rfl, _, rfl, Finset.nonempty_iff_ne_empty.mpr hc⟩
  · rw [if_neg hf] at h
    have h2 := Except.ok.inj h
    rw [← h2]
    refine ⟨rfl, rfl, ?_⟩
    cases ho : cl.owners with
    | none => exact absurd (by rw [falsyOwners.eq_def, ho]) hf
    | some sOwn =>
      refine ⟨sOwn, rfl, ?_⟩
      refine Finset.nonempty_iff_ne_empty.mpr ?_
      intro hemp
      exact hf (by rw [falsyOwners.eq_def, ho, hemp]; simp)

theorem ensureOwners_stable {db : OwnersDatabase} {a : Option String} {cl : ChangeList}
    {s : Finset String} (ho : cl.owners = some s) (hne : s.Nonempty) :
    ChangeList.EnsureOwners db a cl = .ok cl := by
  have hfo : falsyOwners cl.owners = false := by
    rw [falsyOwners.eq_def, ho]
    simp
    exact Finset.nonempty_iff_ne_empty.mp hne
  rw [ChangeList.EnsureOwners, hfo]
  simp

theorem getOwners_ok {db : OwnersDatabase} {a : Option String} {cl cl2 : ChangeList}
    {s : Finset String} (h : ChangeList.GetOwners db a cl = .ok (cl2, s)) :
    cl2.owners = some s ∧ s.Nonempty ∧ cl2.files = cl.files ∧ cl2.path = cl.path ∧
      ChangeList.GetOwners db a cl2 = .ok (cl2, s) := by
  rw [ChangeList.GetOwners] at h
  cases he : ChangeList.EnsureOwners db a cl with
  | error e => rw [he] at h; exact absurd h (by simp)
  | ok cl3 =>
    rw [he] at h
    simp only [Except.ok.injEq, Prod.mk.injEq] at h
    rcases h with ⟨h31, h32⟩
    rcases ensureOwners_ok he with ⟨hf, hp, sOwn, ho, hne⟩
    subst h31
    rw [ho] at h32
    simp only [Option.getD_some] at h32
    subst h32
    refine ⟨ho, hne, hf, hp, ?_⟩
    rw [ChangeList.GetOwners, ensureOwners_stable ho hne]
    simp [ho]

theorem getOwners_ok_nonempty {db : OwnersDatabase} {a : Option String} {cl : ChangeList}
    {r : ChangeList × Finset String} (h : ChangeList.GetOwners db a cl = .ok r) :
    r.2.Nonempty := by
  cases r with
  | mk cl2 s => exact (getOwners_ok h).2.1

theorem getCommonOwners_ok {db : OwnersDatabase} {a : Option String}
    {p c p2 c2 : ChangeList} {cm : Finset String}
    (h : ChangeList.GetCommonOwners db a p c = .ok (p2, c2, cm)) :
    ∃ s1 s2, p2.owners = some s1 ∧ c2.owners = some s2 ∧ s1.Nonempty ∧ s2.Nonempty ∧
      cm = s1 ∩ s2 ∧ p2.files = p.files ∧ c2.files = c.files ∧ p2.path = p.path ∧
      c2.path = c.path ∧ ChangeList.GetCommonOwners db a p2 c2 = .ok (p2, c2, cm) := by
  rw [ChangeList.GetCommonOwners] at h
  cases h1 : ChangeList.GetOwners db a p with
  | error e => rw [h1] at h; exact absurd h (by simp)
  | ok r1 =>
    rw [h1] at h
    rcases r1 with ⟨p3, s1⟩
    cases h2 : ChangeList.GetOwners db a c with
    | error e => rw [h2] at h; exact absurd h (by simp)
    | ok r2 =>
      rw [h2] at h
      rcases r2 with ⟨c3, s2⟩
      simp only [Except.ok.injEq, Prod.mk.injEq] at h
      rcases h with ⟨hp3, hc3, hcm⟩
      subst hp3
      subst hc3
      subst hcm
      rcases getOwners_ok h1 with ⟨ho1, hn1, hf1, hq1, hs1⟩
      rcases getOwners_ok h2 with ⟨ho2, hn2, hf2, hq2, hs2⟩
      refine ⟨s1, s2, ho1, ho2, hn1, hn2, rfl, hf1, hf2, hq1, hq2, ?_⟩
      rw [ChangeList.GetCommonOwners, hs1, hs2]

theorem merge_of_stable {db : OwnersDatabase} {a : Option String}
    {p2 c2 : ChangeList} {cm : Finset String}
    (h : ChangeList.GetCommonOwners db a p2 c2 = .ok (p2, c2, cm)) :
    ChangeList.Merge db a p2 c2 =
      .ok { p2 with owners := some cm, files := p2.files ∪ c2.files } := by
  rw [ChangeList.Merge, h]

theorem haveCommonOwners_ok {db : OwnersDatabase} {a : Option String}
    {p c p2 c2 : ChangeList} {b : Bool}
    (h : ChangeList.HaveCommonOwners db a p c = .ok (p2, c2, b)) :
    ∃ cm, ChangeList.GetCommonOwners db a p c = .ok (p2, c2, cm) ∧
      b = decide (0 < cm.card) := by
  rw [ChangeList.HaveCommonOwners] at h
  cases h1 : ChangeList.GetCommonOwners db a p c with
  | error e => rw [h1] at h; exact absurd h (by simp)
  | ok r =>
    rw [h1] at h
    rcases r with ⟨p3, c3, cm⟩
    simp only [Except.ok.injEq, Prod.mk.injEq] at h
    rcases h with ⟨hp3, hc3, hb⟩
    subst hp3
    subst hc3
    exact ⟨cm, rfl, hb.symm⟩

theorem merge_ok {db : OwnersDatabase} {a : Option String} {p c m : ChangeList}
    (h : ChangeList.Merge db a p c = .ok m) :
    ∃ p2 c2 cm, ChangeList.GetCommonOwners db a p c = .ok (p2, c2, cm) ∧
      m = { p2 with owners := some cm, files := p2.files ∪ c2.files } := by
  rw [ChangeList.Merge] at h
  cases h1 : ChangeList.GetCommonOwners db a p c with
  | error e => rw [h1] at h; exact absurd h (by simp)
  | ok r =>
    rw [h1] at h
    rcases r with ⟨p3, c3, cm⟩
    simp only [Except.ok.injEq] at h
    exact ⟨p3, c3, cm, rfl, h.symm⟩

/-! Characterization of one step of the merge loop. -/

/-- All possible outcomes of `processItem` for a key: skipped, merge
rejected for lack of a common owner (parent possibly created), merge
performed with the parent kept, or merge performed with the parent
emitted.  The hypotheses record exactly the tests made by the code. -/
inductive StepOutcome (db : OwnersDatabase) (a : Option String)
    (st : SplitState) (ed : Bool) (key : SplPath) : SplitState × Bool → Prop where
  | skip : StepOutcome db a st ed key (st, ed)
  | reject (candidate parent_cl parent2 cand2 : ChangeList)
      (cands1 : List (SplPath × ChangeList))
      (hget : trieGet st.candidates key = some candidate)
      (hsub : subCandidateCount st.candidates key = 0)
      (hpar : key.dropLast ≠ [])
      (hc1 : (trieGet st.candidates key.dropLast = some parent_cl ∧ cands1 = st.candidates) ∨
             (trieGet st.candidates key.dropLast = none ∧
              cands1 = trieInsert key.dropLast ⟨key.dropLast, ∅, none⟩ st.candidates ∧
              parent_cl = ⟨key.dropLast, ∅, none⟩))
      (hhco : ChangeList.HaveCommonOwners db a parent_cl candidate = .ok (parent2, cand2, false)) :
      StepOutcome db a st ed key
        (⟨trieInsert key cand2 (trieInsert key.dropLast parent2 cands1), st.changeLists⟩, ed)
  | mergeStay (candidate parent_cl parent2 cand2 merged : ChangeList)
      (cands1 : List (SplPath × ChangeList))
      (hget : trieGet st.candidates key = some candidate)
      (hsub : subCandidateCount st.candidates key = 0)
      (hpar : key.dropLast ≠ [])
      (hc1 : (trieGet st.candidates key.dropLast = some parent_cl ∧ cands1 = st.candidates) ∨
             (trieGet st.candidates key.dropLast = none ∧
              cands1 = trieInsert key.dropLast ⟨key.dropLast, ∅, none⟩ st.candidates ∧
              parent_cl = ⟨key.dropLast, ∅, none⟩))
      (hhco : ChangeList.HaveCommonOwners db a parent_cl candidate = .ok (parent2, cand2, true))
      (hmg : ChangeList.Merge db a parent2 cand2 = .ok merged)
      (hsz : ¬ max_cl_size < merged.GetChangeSizeInBytes) :
      StepOutcome db a st ed key
        (⟨trieInsert key.dropLast merged (trieErase key cands1), st.changeLists⟩, true)
  | mergeEmit (candidate parent_cl parent2 cand2 merged : ChangeList)
      (cands1 : List (SplPath × ChangeList))
      (hget : trieGet st.candidates key = some candidate)
      (hsub : subCandidateCount st.candidates key = 0)
      (hpar : key.dropLast ≠ [])
      (hc1 : (trieGet st.candidates key.dropLast = some parent_cl ∧ cands1 = st.candidates) ∨
             (trieGet st.candidates key.dropLast = none ∧
              cands1 = trieInsert key.dropLast ⟨key.dropLast, ∅, none⟩ st.candidates ∧
              parent_cl = ⟨key.dropLast, ∅, none⟩))
      (hhco : ChangeList.HaveCommonOwners db a parent_cl candidate = .ok (parent2, cand2, true))
      (hmg : ChangeList.Merge db a parent2 cand2 = .ok merged)
      (hsz : max_cl_size < merged.GetChangeSizeInBytes) :
      StepOutcome db a st ed key
        (⟨trieErase key.dropLast (trieInsert key.dropLast merged (trieErase key cands1)),
          st.changeLists ++ [merged]⟩, true)

theorem mergeWithParent_spec {db : OwnersDatabase} {a : Option String} {st : SplitState}
    {ed : Bool} {key : SplPath} {candidate parent_cl : ChangeList}
    {cands1 : List (SplPath × ChangeList)} {acc2 : SplitState × Bool}
    (hget : trieGet st.candidates key = some candidate)
    (hsub : subCandidateCount st.candidates key = 0)
    (hpar : key.dropLast ≠ [])
    (hc1 : (trieGet st.candidates key.dropLast = some parent_cl ∧ cands1 = st.candidates) ∨
           (trieGet st.candidates key.dropLast = none ∧
            cands1 = trieInsert key.dropLast ⟨key.dropLast, ∅, none⟩ st.candidates ∧
            parent_cl = ⟨key.dropLast, ∅, none⟩))
    (h : mergeWithParent db a st ed key candidate key.dropLast cands1 parent_cl = .ok acc2) :
    StepOutcome db a st ed key acc2 := by
  rw [mergeWithParent] at h
  cases hhco : ChangeList.HaveCommonOwners db a parent_cl candidate with
  | error e => rw [hhco] at h; exact absurd h (by simp)
  | ok r =>
    rw [hhco] at h
    rcases r with ⟨parent2, cand2, b⟩
    dsimp only at h
    cases b with
    | false =>
      simp only [Bool.false_eq_true, if_false] at h
      have h2 := Except.ok.inj h
      rw [← h2]
      exact StepOutcome.reject candidate parent_cl parent2 cand2 cands1 hget hsub hpar hc1 hhco
    | true =>
      simp only [if_true] at h
      cases hmg : ChangeList.Merge db a parent2 cand2 with
      | error e => rw [hmg] at h; exact absurd h (by simp)
      | ok merged =>
        rw [hmg] at h
        dsimp only at h
        by_cases hsz : max_cl_size < merged.GetChangeSizeInBytes
        · rw [if_pos hsz] at h
          have h2 := Except.ok.inj h
          rw [← h2]
          exact StepOutcome.mergeEmit candidate parent_cl parent2 cand2 merged cands1
            hget hsub hpar hc1 hhco hmg hsz
        · rw [if_neg hsz] at h
          have h2 := Except.ok.inj h
          rw [← h2]
          exact StepOutcome.mergeStay candidate parent_cl parent2 cand2 merged cands1
            hget hsub hpar hc1 hhco hmg hsz

theorem processItem_spec {db : OwnersDatabase} {a : Option String} {st : SplitState}
    {ed : Bool} {key : SplPath} {acc2 : SplitState × Bool}
    (h : processItem db a (st, ed) key = .ok acc2) : StepOutcome db a st ed key acc2 := by
  rw [processItem] at h
  dsimp only at h
  cases hget : trieGet st.candidates key with
  | none =>
    rw [hget] at h
    have h2 := Except.ok.inj h
    rw [← h2]
    exact StepOutcome.skip
  | some candidate =>
    rw [hget] at h
    dsimp only at h
    by_cases hsub : subCandidateCount st.candidates key = 0
    · rw [if_pos hsub] at h
      by_cases hpar : key.dropLast = []
      · rw [if_pos hpar] at h
        have h2 := Except.ok.inj h
        rw [← h2]
        exact StepOutcome.skip
      · rw [if_neg hpar] at h
        rw [mergeAttempt] at h
        cases hpc : trieGet st.candidates key.dropLast with
        | some p =>
          rw [hpc] at h
          exact mergeWithParent_spec hget hsub hpar (Or.inl ⟨hpc, rfl⟩) h
        | none =>
          rw [hpc] at h
          exact mergeWithParent_spec hget hsub hpar (Or.inr ⟨hpc, rfl, rfl⟩) h
    · rw [if_neg hsub] at h
      have h2 := Except.ok.inj h
      rw [← h2]
      exact StepOutcome.skip

/-! Generic preservation of invariants along the loop. -/

theorem foldlM_preserve {db : OwnersDatabase} {a : Option String}
    {P : SplitState × Bool → Prop}
    (hstep : ∀ acc key acc2, P acc → processItem db a acc key = .ok acc2 → P acc2) :
    ∀ (keys : List SplPath) (acc acc2 : SplitState × Bool), P acc →
      List.foldlM (processItem db a) acc keys = .ok acc2 → P acc2 := by
  intro keys
  induction keys with
  | nil =>
    intro acc acc2 hp h
    rw [List.foldlM_nil] at h
    have h2 : acc = acc2 := Except.ok.inj h
    rw [← h2]
    exact hp
  | cons k ks ih =>
    intro acc acc2 hp h
    rw [List.foldlM_cons] at h
    cases h1 : processItem db a acc k with
    | error e =>
      rw [h1] at h
      exact absurd h (by simp [Bind.bind, Except.bind])
    | ok acc1 =>
      rw [h1] at h
      have h2 : List.foldlM (processItem db a) acc1 ks = .ok acc2 := h
      exact ih acc1 acc2 (hstep acc k acc1 hp h1) h2

theorem runPass_preserve {db : OwnersDatabase} {a : Option String} {P : SplitState → Prop}
    (hstep : ∀ st ed key acc2, P st → processItem db a (st, ed) key = .ok acc2 → P acc2.1)
    {st : SplitState} {st2 : SplitState} {b2 : Bool} (hp : P st)
    (h : runPass db a st = .ok (st2, b2)) : P st2 := by
  rw [runPass] at h
  have := foldlM_preserve (P := fun acc => P acc.1) ?_ _ (st, false) (st2, b2) hp h
  · exact this
  · intro acc key acc2 hpa hpi
    cases acc with
    | mk s e => exact hstep s e key acc2 hpa hpi

theorem mergeLoop_preserve {db : OwnersDatabase} {a : Option String} {P : SplitState → Prop}
    (hstep : ∀ st ed key acc2, P st → processItem db a (st, ed) key = .ok acc2 → P acc2.1) :
    ∀ (fuel : Nat) (st st2 : SplitState) (b2 : Bool), P st →
      mergeLoop db a fuel st = .ok (st2, b2) → P st2 := by
  intro fuel
  induction fuel with
  | zero =>
    intro st st2 b2 hp h
    rw [mergeLoop] at h
    simp only [Except.ok.injEq, Prod.mk.injEq] at h
    rw [← h.1]
    exact hp
  | succ n ih =>
    intro st st2 b2 hp h
    rw [mergeLoop] at h
    cases h1 : runPass db a st with
    | error e => rw [h1] at h; exact absurd h (by simp)
    | ok r =>
      rw [h1] at h
      rcases r with ⟨st1, e1⟩
      dsimp only at h
      cases e1 with
      | true =>
        simp only [if_true] at h
        exact ih st1 st2 b2 (runPass_preserve hstep hp h1) h
      | false =>
        simp only [Bool.false_eq_true, if_false] at h
        simp only [Except.ok.injEq, Prod.mk.injEq] at h
        rw [← h.1]
        exact runPass_preserve hstep hp h1

/-- The result of a `Merge` performed right after a successful
`HaveCommonOwners` test: the memoized intersection with the union of the
file sets. -/
theorem merged_of_have {db : OwnersDatabase} {a : Option String}
    {parent_cl candidate parent2 cand2 merged : ChangeList}
    (hhco : ChangeList.HaveCommonOwners db a parent_cl candidate = .ok (parent2, cand2, true))
    (hmg : ChangeList.Merge db a parent2 cand2 = .ok merged) :
    ∃ cm, merged = { parent2 with owners := some cm, files := parent2.files ∪ cand2.files } ∧
      cm.Nonempty ∧
      ChangeList.GetCommonOwners db a parent_cl candidate = .ok (parent2, cand2, cm) ∧
      parent2.files = parent_cl.files ∧ cand2.files = candidate.files ∧
      parent2.path = parent_cl.path ∧ cand2.path = candidate.path := by
  rcases haveCommonOwners_ok hhco with ⟨cm, hgco, hb⟩
  rcases getCommonOwners_ok hgco with ⟨s1, s2, ho1, ho2, hn1, hn2, hcm, hf1, hf2, hp1, hp2, hstable⟩
  have hm2 := merge_of_stable hstable
  rw [hmg] at hm2
  have hmeq := Except.ok.inj hm2
  have hbtrue : 0 < cm.card := of_decide_eq_true hb.symm
  exact ⟨cm, hmeq, Finset.card_pos.mp hbtrue, hgco, hf1, hf2, hp1, hp2⟩

/-! Invariants preserved by the merge loop. -/

/-- Every change list emitted during the merge loop exceeds the budget. -/
def emittedBig (st : SplitState) : Prop :=
  ∀ u ∈ st.changeLists, max_cl_size < u.GetChangeSizeInBytes

/-- Every owner set memoized anywhere in the state is non-empty. -/
def ownersInv (st : SplitState) : Prop :=
  (∀ e ∈ st.candidates, ∀ s, e.2.owners = some s → s.Nonempty) ∧
  (∀ u ∈ st.changeLists, ∀ s, u.owners = some s → s.Nonempty)

/-- The candidate trie is sorted. -/
def candsSorted (st : SplitState) : Prop := trieSorted st.candidates

theorem step_emittedBig {db : OwnersDatabase} {a : Option String} {st : SplitState}
    {ed : Bool} {key : SplPath} {acc2 : SplitState × Bool}
    (h : processItem db a (st, ed) key = .ok acc2) (hp : emittedBig st) :
    emittedBig acc2.1 := by
  cases processItem_spec h with
  | skip => exact hp
  | reject candidate parent_cl parent2 cand2 cands1 hget hsub hpar hc1 hhco => exact hp
  | mergeStay candidate parent_cl parent2 cand2 merged cands1 hget hsub hpar hc1 hhco hmg hsz =>
    exact hp
  | mergeEmit candidate parent_cl parent2 cand2 merged cands1 hget hsub hpar hc1 hhco hmg hsz =>
    intro u hu
    rcases List.mem_append.mp hu with h1 | h1
    · exact hp u h1
    · have : u = merged := by simpa using h1
      rw [this]
      exact hsz

theorem cands1_entries {st : SplitState} {key : SplPath} {parent_cl : ChangeList}
    {cands1 : List (SplPath × ChangeList)}
    (hc1 : (trieGet st.candidates key.dropLast = some parent_cl ∧ cands1 = st.candidates) ∨
           (trieGet st.candidates key.dropLast = none ∧
            cands1 = trieInsert key.dropLast ⟨key.dropLast, ∅, none⟩ st.candidates ∧
            parent_cl = ⟨key.dropLast, ∅, none⟩)) :
    ∀ e ∈ cands1, e = (key.dropLast, (⟨key.dropLast, ∅, none⟩ : ChangeList)) ∨
      e ∈ st.candidates := by
  intro e he
  rcases hc1 with ⟨hg, hc⟩ | ⟨hg, hc, hpcl⟩
  · exact Or.inr (hc ▸ he)
  · rw [hc] at he
    exact mem_trieInsert he

theorem step_ownersInv {db : OwnersDatabase} {a : Option String} {st : SplitState}
    {ed : Bool} {key : SplPath} {acc2 : SplitState × Bool}
    (h : processItem db a (st, ed) key = .ok acc2) (hp : ownersInv st) :
    ownersInv acc2.1 := by
  cases processItem_spec h with
  | skip => exact hp
  | reject candidate parent_cl parent2 cand2 cands1 hget hsub hpar hc1 hhco =>
    rcases haveCommonOwners_ok hhco with ⟨cm, hgco, hb⟩
    rcases getCommonOwners_ok hgco with ⟨s1, s2, ho1, ho2, hn1, hn2, _, _, _, _, _, _⟩
    refine ⟨?_, hp.2⟩
    intro e he s hs
    rcases mem_trieInsert he with h1 | h1
    · rw [h1] at hs
      rw [ho2] at hs
      exact (Option.some.inj hs) ▸ hn2
    · rcases mem_trieInsert h1 with h2 | h2
      · rw [h2] at hs
        rw [ho1] at hs
        exact (Option.some.inj hs) ▸ hn1
      · rcases cands1_entries hc1 e h2 with h3 | h3
        · rw [h3] at hs
          exact absurd hs (by simp)
        · exact hp.1 e h3 s hs
  | mergeStay candidate parent_cl parent2 cand2 merged cands1 hget hsub hpar hc1 hhco hmg hsz =>
    rcases merged_of_have hhco hmg with ⟨cm, hmeq, hcmne, _, _, _, _, _⟩
    refine ⟨?_, hp.2⟩
    intro e he s hs
    rcases mem_trieInsert he with h1 | h1
    · rw [h1] at hs
      rw [hmeq] at hs
      simp only at hs
      exact (Option.some.inj hs) ▸ hcmne
    · rcases cands1_entries hc1 e (mem_trieErase.mp h1).1 with h3 | h3
      · rw [h3] at hs
        exact absurd hs (by simp)
      · exact hp.1 e h3 s hs
  | mergeEmit candidate parent_cl parent2 cand2 merged cands1 hget hsub hpar hc1 hhco hmg hsz =>
    rcases merged_of_have hhco hmg with ⟨cm, hmeq, hcmne, _, _, _, _, _⟩
    constructor
    · intro e he s hs
      have h1 := (mem_trieErase.mp he).1
      rcases mem_trieInsert h1 with h2 | h2
      · rw [h2] at hs
        rw [hmeq] at hs
        simp only at hs
        exact (Option.some.inj hs) ▸ hcmne
      · rcases cands1_entries hc1 e (mem_trieErase.mp h2).1 with h3 | h3
        · rw [h3] at hs
          exact absurd hs (by simp)
        · exact hp.1 e h3 s hs
    · intro u hu s hs
      rcases List.mem_append.mp hu with h1 | h1
      · exact hp.2 u h1 s hs
      · have h2 : u = merged := by simpa using h1
        rw [h2, hmeq] at hs
        simp only at hs
        exact (Option.some.inj hs) ▸ hcmne

theorem cands1_sorted {st : SplitState} {key : SplPath} {parent_cl : ChangeList}
    {cands1 : List (SplPath × ChangeList)}
    (hs : trieSorted st.candidates)
    (hc1 : (trieGet st.candidates key.dropLast = some parent_cl ∧ cands1 = st.candidates) ∨
           (trieGet st.candidates key.dropLast = none ∧
            cands1 = trieInsert key.dropLast ⟨key.dropLast, ∅, none⟩ st.candidates ∧
            parent_cl = ⟨key.dropLast, ∅, none⟩)) :
    trieSorted cands1 := by
  rcases hc1 with ⟨hg, hc⟩ | ⟨hg, hc, hpcl⟩
  · rw [hc]; exact hs
  · rw [hc]; exact trieSorted_insert hs

theorem step_candsSorted {db : OwnersDatabase} {a : Option String} {st : SplitState}
    {ed : Bool} {key : SplPath} {acc2 : SplitState × Bool}
    (h : processItem db a (st, ed) key = .ok acc2) (hp : candsSorted st) :
    candsSorted acc2.1 := by
  cases processItem_spec h with
  | skip => exact hp
  | reject candidate parent_cl parent2 cand2 cands1 hget hsub hpar hc1 hhco =>
    exact trieSorted_insert (trieSorted_insert (cands1_sorted hp hc1))
  | mergeStay candidate parent_cl parent2 cand2 merged cands1 hget hsub hpar hc1 hhco hmg hsz =>
    exact trieSorted_insert (trieSorted_erase (cands1_sorted hp hc1))
  | mergeEmit candidate parent_cl parent2 cand2 merged cands1 hget hsub hpar hc1 hhco hmg hsz =>
    exact trieSorted_erase (trieSorted_insert (trieSorted_erase (cands1_sorted hp hc1)))

/-! Properties of seeding and decomposition of `SplitCLs`. -/

theorem foldl_insert_sorted : ∀ (files : List AffectedFile) (c : List (SplPath × ChangeList)),
    trieSorted c →
    trieSorted (files.foldl (fun c f => trieInsert f.path ⟨f.path, {f}, none⟩ c) c) := by
  intro files
  induction files with
  | nil => intro c h; exact h
  | cons f fs ih => intro c h; exact ih _ (trieSorted_insert h)

theorem seed_sorted (files : List AffectedFile) : trieSorted (seedCandidates files) :=
  foldl_insert_sorted files [] (by simp [trieSorted])

theorem seed_entry_owners : ∀ (files : List AffectedFile) (c : List (SplPath × ChangeList)),
    (∀ e ∈ c, e.2.owners = none) →
    ∀ e ∈ files.foldl (fun c f => trieInsert f.path ⟨f.path, {f}, none⟩ c) c,
      e.2.owners = none := by
  intro files
  induction files with
  | nil => intro c h; exact h
  | cons f fs ih =>
    intro c h
    refine ih _ ?_
    intro e he
    rcases mem_trieInsert he with h1 | h1
    · rw [h1]
    · exact h e h1

theorem splitCLs_ok {db : OwnersDatabase} {a : Option String} {files : List AffectedFile}
    {units : List ChangeList} (h : SplitCLs db a files = .ok units) :
    ∃ st b, mergeLoop db a (splitFuel (seedCandidates files))
        ⟨seedCandidates files, []⟩ = .ok (st, b) ∧
      units = st.changeLists ++ st.candidates.map (fun e => e.2) := by
  rw [SplitCLs] at h
  cases h1 : mergeLoop db a (splitFuel (seedCandidates files)) ⟨seedCandidates files, []⟩ with
  | error e => rw [h1] at h; exact absurd h (by simp)
  | ok r =>
    rw [h1] at h
    rcases r with ⟨st, b⟩
    dsimp only at h
    exact ⟨st, b, rfl, (Except.ok.inj h).symm⟩

/-- C7: every unit appended to the emitted list during the merge loop has
size strictly greater than the budget (1000 byte-deltas) at the moment it
is emitted; the final output is exactly those units followed by the
drain-time leftovers, so any emitted unit of size at most the budget can
only come from the drain. -/
theorem claim_C7_budget (db : OwnersDatabase) (a : Option String)
    (files : List AffectedFile) (units : List ChangeList)
    (h : SplitCLs db a files = .ok units) :
    ∃ st b, mergeLoop db a (splitFuel (seedCandidates files))
        ⟨seedCandidates files, []⟩ = .ok (st, b) ∧
      units = st.changeLists ++ st.candidates.map (fun e => e.2) ∧
      (∀ u ∈ st.changeLists, max_cl_size < u.GetChangeSizeInBytes) := by
  rcases splitCLs_ok h with ⟨st, b, hloop, hunits⟩
  refine ⟨st, b, hloop, hunits, ?_⟩
  refine mergeLoop_preserve (P := emittedBig) ?_ _ _ _ _ ?_ hloop
  · intro st1 ed key acc2 hp hpi
    exact step_emittedBig hpi hp
  · intro u hu
    exact absurd hu (by simp)

theorem claim_C7_budget_witness :
    ∃ st b, mergeLoop dbAlice none (splitFuel (seedCandidates [fileAX, fileAY, fileBZ]))
        ⟨seedCandidates [fileAX, fileAY, fileBZ], []⟩ = .ok (st, b) ∧
      ([(⟨["b"], {fileBZ}, some {"alice"}⟩ : ChangeList),
        ⟨["a"], {fileAX, fileAY}, some {"alice"}⟩] : List ChangeList) =
        st.changeLists ++ st.candidates.map (fun e => e.2) ∧
      (∀ u ∈ st.changeLists, max_cl_size < u.GetChangeSizeInBytes) :=
  claim_C7_budget dbAlice none [fileAX, fileAY, fileBZ]
    [⟨["b"], {fileBZ}, some {"alice"}⟩, ⟨["a"], {fileAX, fileAY}, some {"alice"}⟩]
    (by decide)

/-- C2: the owner-set accessor never successfully returns an empty set
(an empty resolution aborts the whole computation as an error instead),
and every unit emitted by a successful `SplitCLs` run has a memoized
owner set that is either unresolved or non-empty; in particular resolving
the owner set of any emitted unit yields a non-empty set or an error. -/
theorem claim_C2_coverage (db : OwnersDatabase) (a : Option String)
    (files : List AffectedFile) (units : List ChangeList)
    (h : SplitCLs db a files = .ok units) :
    ∀ u ∈ units, (∀ s, u.owners = some s → s.Nonempty) ∧
      ∀ r, ChangeList.GetOwners db a u = .ok r → r.2.Nonempty := by
  rcases splitCLs_ok h with ⟨st, b, hloop, hunits⟩
  have hinv : ownersInv st := by
    refine mergeLoop_preserve (P := ownersInv) ?_ _ _ _ _ ?_ hloop
    · intro st1 ed key acc2 hp hpi
      exact step_ownersInv hpi hp
    · constructor
      · intro e he sOwn hs
        have := seed_entry_owners files [] (by simp) e he
        rw [this] at hs
        exact absurd hs (by simp)
      · intro u hu
        exact absurd hu (by simp)
  intro u hu
  refine ⟨?_, ?_⟩
  · rw [hunits] at hu
    rcases List.mem_append.mp hu with h1 | h1
    · exact hinv.2 u h1
    · rcases List.mem_map.mp h1 with ⟨e, he, heq⟩
      exact heq ▸ hinv.1 e he
  · intro r hr
    exact getOwners_ok_nonempty hr

theorem claim_C2_coverage_witness :
    (∀ s, (⟨["a"], {fileAX10}, some {"alice"}⟩ : ChangeList).owners = some s → s.Nonempty) ∧
      ∀ r, ChangeList.GetOwners dbAlice none (⟨["a"], {fileAX10}, some {"alice"}⟩ : ChangeList) =
        .ok r → r.2.Nonempty :=
  claim_C2_coverage dbAlice none [fileAX10] [⟨["a"], {fileAX10}, some {"alice"}⟩]
    (by decide) _ (by simp)

/-! Claim C8: the sub-candidate count. -/

theorem count_split (p : SplPath) : ∀ c : List (SplPath × ChangeList),
    (c.filter (fun e => p.isPrefixOf e.1)).length =
      (c.filter (fun e => decide (e.1 = p))).length +
      (c.filter (fun e => decide (p <+: e.1 ∧ p ≠ e.1))).length := by
  intro c
  induction c with
  | nil => rfl
  | cons f rest ih =>
    by_cases hpfx : p <+: f.1
    · by_cases heq : f.1 = p
      · rw [List.filter_cons, List.filter_cons, List.filter_cons,
          if_pos (by rw [List.isPrefixOf_iff_prefix]; exact hpfx),
          if_pos (by simpa using heq),
          if_neg (by simp only [decide_eq_true_eq, not_and, not_not]; intro _; rw [heq])]
        simp only [List.length_cons, ih]
        omega
      · rw [List.filter_cons, List.filter_cons, List.filter_cons,
          if_pos (by rw [List.isPrefixOf_iff_prefix]; exact hpfx),
          if_neg (by simpa using heq),
          if_pos (by simp only [decide_eq_true_eq]; exact ⟨hpfx, fun h => heq h.symm⟩)]
        simp only [List.length_cons, ih]
        omega
    · rw [List.filter_cons, List.filter_cons, List.filter_cons,
        if_neg (by rw [List.isPrefixOf_iff_prefix]; exact hpfx),
        if_neg (by simp only [decide_eq_true_eq]; intro h; exact hpfx (by rw [h])),
        if_neg (by simp only [decide_eq_true_eq, not_and]; intro h; exact absurd h hpfx)]
      exact ih

theorem count_eq_one (p : SplPath) (v : ChangeList) :
    ∀ c : List (SplPath × ChangeList), (c.map (fun e => e.1)).Nodup → (p, v) ∈ c →
      (c.filter (fun e => decide (e.1 = p))).length = 1 := by
  intro c
  induction c with
  | nil => intro _ hm; exact absurd hm (by simp)
  | cons f rest ih =>
    intro hnd hm
    simp only [List.map_cons, List.nodup_cons] at hnd
    rcases List.mem_cons.mp hm with h | h
    · subst h
      rw [List.filter_cons, if_pos (by simp)]
      have hrest : List.filter (fun e => decide (e.1 = p)) rest = [] := by
        rw [List.filter_eq_nil_iff]
        intro e he
        simp only [decide_eq_true_eq]
        intro hek
        refine hnd.1 ?_
        simp only [List.mem_map]
        exact ⟨e, he, by simp [hek]⟩
      rw [hrest]
      rfl
    · have hf : f.1 ≠ p := by
        intro hek
        refine hnd.1 ?_
        simp only [List.mem_map]
        exact ⟨(p, v), h, by simp [hek]⟩
      rw [List.filter_cons, if_neg (by simpa using hf)]
      exact ih hnd.2 h

/-- C8: in a well-formed trie (at most one entry per anchor path) that
contains an entry at path `p`, the `sub_cls` computation equals the number
of trie entries whose anchor path lies in a strict subdirectory of `p` in
the path-component sense; a sibling entry whose path merely extends the
last component of `p` as a character string is not counted. -/
theorem claim_C8_subcount (c : List (SplPath × ChangeList)) (p : SplPath) (v : ChangeList)
    (hnd : (c.map (fun e => e.1)).Nodup) (hget : trieGet c p = some v) :
    subCandidateCount c p =
      (c.filter (fun e => decide (p <+: e.1 ∧ p ≠ e.1))).length := by
  have hmem : (p, v) ∈ c := trieGet_some hget
  rw [subCandidateCount, trieKeysWith, List.length_map, count_split p c,
    count_eq_one p v c hnd hmem]
  omega

/-- Concrete trie with an entry at `a`, an entry below `a`, and a sibling
entry at `ab` that shares `a` as a character prefix only. -/
def sibTrie : List (SplPath × ChangeList) :=
  [(["a"], ⟨["a"], ∅, none⟩), (["a", "x.txt"], ⟨["a", "x.txt"], ∅, none⟩),
   (["ab", "y.txt"], ⟨["ab", "y.txt"], ∅, none⟩)]

theorem claim_C8_subcount_witness :
    subCandidateCount sibTrie ["a"] =
      (sibTrie.filter (fun e => decide ((["a"] : SplPath) <+: e.1 ∧ ["a"] ≠ e.1))).length ∧
    subCandidateCount sibTrie ["a"] = 1 :=
  ⟨claim_C8_subcount sibTrie ["a"] ⟨["a"], ∅, none⟩ (by decide) (by decide), by decide⟩

/-! Claims C4, C5, C6, C10: concrete behaviours. -/

theorem getCommonOwners_elim {db : OwnersDatabase} {a : Option String}
    {p c p2 c2 : ChangeList} {cm : Finset String}
    (h : ChangeList.GetCommonOwners db a p c = .ok (p2, c2, cm)) :
    ∃ s1 s2, ChangeList.GetOwners db a p = .ok (p2, s1) ∧
      ChangeList.GetOwners db a c = .ok (c2, s2) ∧ cm = s1 ∩ s2 := by
  rw [ChangeList.GetCommonOwners] at h
  cases h1 : ChangeList.GetOwners db a p with
  | error e => rw [h1] at h; exact absurd h (by simp)
  | ok r1 =>
    rw [h1] at h
    rcases r1 with ⟨p3, s1⟩
    cases h2 : ChangeList.GetOwners db a c with
    | error e => rw [h2] at h; exact absurd h (by simp)
    | ok r2 =>
      rw [h2] at h
      rcases r2 with ⟨c3, s2⟩
      simp only [Except.ok.injEq, Prod.mk.injEq] at h
      rcases h with ⟨hp3, hc3, hcm⟩
      subst hp3
      subst hc3
      exact ⟨s1, s2, rfl, rfl, hcm.symm⟩

theorem getOwners_memo {db : OwnersDatabase} {a : Option String} {cl : ChangeList}
    {s : Finset String} (ho : cl.owners = some s) (hne : s.Nonempty) :
    ChangeList.GetOwners db a cl = .ok (cl, s) := by
  rw [ChangeList.GetOwners, ensureOwners_stable ho hne]
  simp [ho]

/-- C4 is false as stated: with the budget-exceeding singleton `b/z.txt`
and an oracle granting `alice` everywhere, there is no seed-stage
emission; the file is first merged into the freshly created candidate for
its parent directory and the emitted unit is anchored at `b`, not at the
file's own path `b/z.txt`. -/
theorem claim_C4_counterexample :
    SplitCLs dbAlice none [fileBZ] = .ok [⟨["b"], {fileBZ}, some {"alice"}⟩] ∧
    (["b"] : SplPath) ≠ ["b", "z.txt"] := by decide

/-- C4 (amended): budget exceedance is checked only immediately after a
merge, never at the singleton/seed stage.  In the spec scenario the
over-budget file `b/z.txt` is merged into the created parent candidate
and the resulting unit, anchored at the parent directory `b` (the
dropLast of the file path), is emitted from the merge loop; the two small
`a` files merge into one unit anchored at `a` emitted at drain. -/
theorem claim_C4_amended :
    SplitCLs dbAlice none [fileAX, fileAY, fileBZ] =
      .ok [⟨["b"], {fileBZ}, some {"alice"}⟩, ⟨["a"], {fileAX, fileAY}, some {"alice"}⟩] ∧
    (["b"] : SplPath) = (["b", "z.txt"] : SplPath).dropLast := by decide

/-- C5 is false as stated: `Merge` memoizes the intersection of the
pre-merge owner sets; a later `GetOwners` returns that memoized value,
which differs from what a fresh oracle query over the merged file set
would return (`dbPair` covers each of the two files by `bob` alone but
not their union). -/
theorem claim_C5_counterexample :
    ChangeList.Merge dbPair none ⟨["a", "x.txt"], {fileAX10}, none⟩
        ⟨["a", "y.txt"], {fileAY10}, none⟩ =
      .ok ⟨["a", "x.txt"], {fileAX10, fileAY10}, some {"alice", "bob"}⟩ ∧
    ChangeList.GetOwners dbPair none
        ⟨["a", "x.txt"], {fileAX10, fileAY10}, some {"alice", "bob"}⟩ =
      .ok (⟨["a", "x.txt"], {fileAX10, fileAY10}, some {"alice", "bob"}⟩, {"alice", "bob"}) ∧
    ChangeList.GetOwners dbPair none ⟨["a", "x.txt"], {fileAX10, fileAY10}, none⟩ =
      .ok (⟨["a", "x.txt"], {fileAX10, fileAY10}, some {"alice"}⟩, {"alice"}) ∧
    ({"alice", "bob"} : Finset String) ≠ {"alice"} := by decide

/-- C5 (amended): `Merge` memoizes at merge time: it sets the merged
unit's owner set to the intersection of the two units' pre-merge owner
sets (each resolved through `GetOwners`) and does not invalidate it; a
later `GetOwners` on the merged unit returns exactly this memoized
non-empty value without consulting the oracle over the merged file
set. -/
theorem claim_C5_amended (db : OwnersDatabase) (a : Option String) (c1 c2 m : ChangeList)
    (h : ChangeList.Merge db a c1 c2 = .ok m) :
    (∃ r1 r2, ChangeList.GetOwners db a c1 = .ok r1 ∧
      ChangeList.GetOwners db a c2 = .ok r2 ∧
      m.owners = some (r1.2 ∩ r2.2) ∧ m.files = c1.files ∪ c2.files ∧ m.path = c1.path) ∧
    (∀ s, m.owners = some s → s.Nonempty → ChangeList.GetOwners db a m = .ok (m, s)) := by
  rcases merge_ok h with ⟨p2, c2x, cm, hgco, hm⟩
  rcases getCommonOwners_elim hgco with ⟨s1, s2, hg1, hg2, hcm⟩
  rcases getOwners_ok hg1 with ⟨_, _, hf1, hq1, _⟩
  rcases getOwners_ok hg2 with ⟨_, _, hf2, _, _⟩
  constructor
  · refine ⟨(p2, s1), (c2x, s2), hg1, hg2, ?_, ?_, ?_⟩
    · rw [hm, ← hcm]
    · rw [hm]
      simp only
      rw [hf1, hf2]
    · rw [hm]
      simp only
      rw [hq1]
  · intro s ho hne
    exact getOwners_memo ho hne

theorem claim_C5_amended_witness :
    (∃ r1 r2, ChangeList.GetOwners dbPair none ⟨["a", "x.txt"], {fileAX10}, none⟩ = .ok r1 ∧
      ChangeList.GetOwners dbPair none ⟨["a", "y.txt"], {fileAY10}, none⟩ = .ok r2 ∧
      (⟨["a", "x.txt"], {fileAX10, fileAY10}, some {"alice", "bob"}⟩ : ChangeList).owners =
        some (r1.2 ∩ r2.2) ∧
      (⟨["a", "x.txt"], {fileAX10, fileAY10}, some {"alice", "bob"}⟩ : ChangeList).files =
        ({fileAX10} : Finset AffectedFile) ∪ {fileAY10} ∧
      (⟨["a", "x.txt"], {fileAX10, fileAY10}, some {"alice", "bob"}⟩ : ChangeList).path =
        ["a", "x.txt"]) ∧
    (∀ s, (⟨["a", "x.txt"], {fileAX10, fileAY10}, some {"alice", "bob"}⟩ : ChangeList).owners =
        some s → s.Nonempty →
      ChangeList.GetOwners dbPair none
          ⟨["a", "x.txt"], {fileAX10, fileAY10}, some {"alice", "bob"}⟩ =
        .ok (⟨["a", "x.txt"], {fileAX10, fileAY10}, some {"alice", "bob"}⟩, s)) :=
  claim_C5_amended dbPair none ⟨["a", "x.txt"], {fileAX10}, none⟩
    ⟨["a", "y.txt"], {fileAY10}, none⟩
    ⟨["a", "x.txt"], {fileAX10, fileAY10}, some {"alice", "bob"}⟩ (by decide)

/-- C6 is false as stated: an input with two records at the same path is
not rejected at ingestion; the call succeeds, and the earlier record is
silently dropped from the output (the later one overwrites it at
seeding). -/
theorem claim_C6_counterexample :
    SplitCLs dbAlice none [fileAX10, fileAX20] = .ok [⟨["a"], {fileAX20}, some {"alice"}⟩] ∧
    fileAX10 ≠ fileAX20 ∧ fileAX10 ∉ ({fileAX20} : Finset AffectedFile) := by decide

/-- A concrete file with an empty path, accepted without validation. -/
def fileEmpty : AffectedFile := ⟨[], [(10, 0)]⟩

/-- C6 (amended): there is no ingestion validation.  Seeding two files
with the same path keeps only the later one (the overwrite of the trie
assignment), so the whole partition run behaves exactly as if the earlier
duplicate had not been supplied; and a file with an empty path is likewise
accepted: its candidate is skipped by the merge loop (the
`len(parent_path) < 1` test) and drained unchanged, the call succeeding
rather than failing. -/
theorem claim_C6_amended (db : OwnersDatabase) (a : Option String) (f1 f2 : AffectedFile)
    (h : f1.path = f2.path) :
    SplitCLs db a [f1, f2] = SplitCLs db a [f2] ∧
      ∀ g : AffectedFile, g.path = [] →
        SplitCLs db a [g] = .ok [⟨[], {g}, none⟩] := by
  constructor
  · have hseed : seedCandidates [f1, f2] = seedCandidates [f2] := by
      simp [seedCandidates, trieInsert, h]
    rw [SplitCLs, SplitCLs, hseed]
  · intro g hg
    rcases g with ⟨p, cs⟩
    have hp : p = [] := hg
    subst hp
    rfl

theorem claim_C6_amended_witness :
    fileAX10.path = fileAX20.path ∧ fileEmpty.path = [] ∧
      SplitCLs dbAlice none [fileAX10, fileAX20] = SplitCLs dbAlice none [fileAX20] ∧
      SplitCLs dbAlice none [fileEmpty] = .ok [⟨[], {fileEmpty}, none⟩] :=
  ⟨by decide, by decide,
   (claim_C6_amended dbAlice none fileAX10 fileAX20 (by decide)).1,
   (claim_C6_amended dbAlice none fileAX10 fileAX20 (by decide)).2 fileEmpty (by decide)⟩

/-- C10: a parent candidate created with an empty file set during a merge
attempt that is rejected for lack of a common approver stays in the trie,
survives to the drain, and is emitted with an empty file set; its owner
set was resolved by querying the oracle over its anchor directory path
`a` (yielding the directory owner `bob`), not over any changed file. -/
theorem claim_C10_empty_unit :
    SplitCLs dbDir none [fileAX10] =
      .ok [⟨["a"], ∅, some {"bob"}⟩, ⟨["a", "x.txt"], {fileAX10}, some {"alice"}⟩] ∧
    (⟨["a"], ∅, some {"bob"}⟩ : ChangeList).files = ∅ ∧
    dbDir.all_possible_owners {["a"]} none = {"bob"} ∧
    ({"bob"} : Finset String) ≠ {"alice"} := by decide

/-! Claim C1: the partition property. -/

/-- Union of a list of file sets. -/
def unionFS : List (Finset AffectedFile) → Finset AffectedFile
  | [] => ∅
  | s :: rest => s ∪ unionFS rest

/-- The file sets of all units owned by the state, candidates first. -/
def filesList (st : SplitState) : List (Finset AffectedFile) :=
  st.candidates.map (fun e => e.2.files) ++ st.changeLists.map (fun u => u.files)

/-- The partition invariant for a list of file sets: pairwise disjoint
with union exactly the input changeset. -/
def goodFS (input : Finset AffectedFile) (l : List (Finset AffectedFile)) : Prop :=
  List.Pairwise (fun s t => Disjoint s t) l ∧ unionFS l = input

/-- The partition invariant of a state. -/
def partInv (input : Finset AffectedFile) (st : SplitState) : Prop :=
  goodFS input (filesList st)

theorem unionFS_perm {l1 l2 : List (Finset AffectedFile)} (h : l1.Perm l2) :
    unionFS l1 = unionFS l2 := by
  induction h with
  | nil => rfl
  | cons x _ ih => rw [unionFS, unionFS, ih]
  | swap x y l => rw [unionFS, unionFS, unionFS, unionFS]; rw [← Finset.union_assoc,
      Finset.union_comm y x, Finset.union_assoc]
  | trans _ _ ih1 ih2 => rw [ih1, ih2]

theorem goodFS_perm {input : Finset AffectedFile} {l1 l2 : List (Finset AffectedFile)}
    (h : l1.Perm l2) (hg : goodFS input l1) : goodFS input l2 := by
  refine ⟨?_, ?_⟩
  · exact (List.Perm.pairwise_iff (by intro s t hst; exact hst.symm) h).mp hg.1
  · rw [← unionFS_perm h]
    exact hg.2

theorem goodFS_cons_empty {input : Finset AffectedFile} {l : List (Finset AffectedFile)}
    (hg : goodFS input l) : goodFS input (∅ :: l) := by
  refine ⟨?_, ?_⟩
  · rw [List.pairwise_cons]
    exact ⟨fun s _ => Finset.disjoint_empty_left s, hg.1⟩
  · rw [unionFS, Finset.empty_union]
    exact hg.2

theorem goodFS_merge_head {input : Finset AffectedFile} {x y : Finset AffectedFile}
    {l : List (Finset AffectedFile)} (hg : goodFS input (x :: y :: l)) :
    goodFS input ((y ∪ x) :: l) := by
  rcases hg with ⟨hd, hu⟩
  rw [List.pairwise_cons] at hd
  rcases hd with ⟨hx, hd2⟩
  rw [List.pairwise_cons] at hd2
  rcases hd2 with ⟨hy, hd3⟩
  refine ⟨?_, ?_⟩
  · rw [List.pairwise_cons]
    refine ⟨?_, hd3⟩
    intro s hs
    rw [Finset.disjoint_union_left]
    exact ⟨hy s hs, hx s (List.mem_cons_of_mem y hs)⟩
  · rw [unionFS] at hu ⊢
    rw [unionFS] at hu
    rw [← hu, ← Finset.union_assoc, Finset.union_comm y x, Finset.union_assoc]

/-- Erasing one key then inserting at a different key, at the level of
permutations of the entries. -/
theorem erase_insert_perm {k k2 : SplPath} {v : ChangeList}
    {c : List (SplPath × ChangeList)} (hs : trieSorted c) (hne : k ≠ k2) :
    (trieErase k (trieInsert k2 v c)).Perm ((k2, v) :: trieErase k (trieErase k2 c)) := by
  have h1 : (trieInsert k2 v c).Perm ((k2, v) :: trieErase k2 c) := trieInsert_perm hs
  have h2 := h1.filter (fun e => decide (e.1 ≠ k))
  rw [show List.filter (fun e => decide (e.1 ≠ k)) (trieInsert k2 v c) =
    trieErase k (trieInsert k2 v c) from rfl] at h2
  rw [List.filter_cons, if_pos (by simp; exact fun he => hne he.symm)] at h2
  exact h2

theorem dropLast_ne_self {p : SplPath} (h : p.dropLast ≠ []) : p.dropLast ≠ p := by
  intro he
  have hlen := congrArg List.length he
  rw [List.length_dropLast] at hlen
  cases p with
  | nil => exact h rfl
  | cons x xs => simp at hlen

theorem key_of_par {key : SplPath} (hpar : key.dropLast ≠ []) : key.dropLast ≠ key :=
  dropLast_ne_self hpar

theorem step_partInv {db : OwnersDatabase} {a : Option String} {st : SplitState}
    {ed : Bool} {key : SplPath} {acc2 : SplitState × Bool} {input : Finset AffectedFile}
    (h : processItem db a (st, ed) key = .ok acc2)
    (hs : candsSorted st) (hp : partInv input st) : partInv input acc2.1 := by
  have hsor : trieSorted st.candidates := hs
  cases processItem_spec h with
  | skip => exact hp
  | reject candidate parent_cl parent2 cand2 cands1 hget hsub hpar hc1 hhco =>
    have hkp : key.dropLast ≠ key := key_of_par hpar
    rcases haveCommonOwners_ok hhco with ⟨cm, hgco, _⟩
    rcases getCommonOwners_ok hgco with ⟨s1, s2, _, _, _, _, _, hfp, hfc, _, _, _⟩
    have hstP : (st.candidates.map (fun e => e.2.files)).Perm
        (candidate.files :: (trieErase key st.candidates).map (fun e => e.2.files)) :=
      (mem_perm_erase hsor (trieGet_some hget)).map (fun e => e.2.files)
    have hp2 : goodFS input (st.candidates.map (fun e => e.2.files) ++
        st.changeLists.map (fun u => u.files)) := hp
    have hgoodA : goodFS input ((candidate.files :: (trieErase key st.candidates).map (fun e => e.2.files)) ++ st.changeLists.map (fun u => u.files)) :=
      goodFS_perm (hstP.append_right (st.changeLists.map (fun u => u.files))) hp2
    simp only [List.cons_append] at hgoodA
    rcases hc1 with ⟨hpc, hc⟩ | ⟨hpc, hc, hpcl⟩
    · subst hc
      have hmem : (key.dropLast, parent_cl) ∈ trieErase key st.candidates :=
        mem_trieErase.mpr ⟨trieGet_some hpc, hkp⟩
      have hstP2 : ((trieErase key st.candidates).map (fun e => e.2.files)).Perm
          (parent_cl.files :: (trieErase key.dropLast (trieErase key st.candidates)).map (fun e => e.2.files)) :=
        (mem_perm_erase (trieSorted_erase hsor) hmem).map (fun e => e.2.files)
      have hconsP : (((trieErase key st.candidates).map (fun e => e.2.files)) ++ st.changeLists.map (fun u => u.files)).Perm
          ((parent_cl.files :: (trieErase key.dropLast (trieErase key st.candidates)).map (fun e => e.2.files)) ++ st.changeLists.map (fun u => u.files)) :=
        hstP2.append_right (st.changeLists.map (fun u => u.files))
      simp only [List.cons_append] at hconsP
      have hgoodB := goodFS_perm (hconsP.cons candidate.files) hgoodA
      have hgoodC : goodFS input (cand2.files :: parent2.files ::
          (((trieErase key.dropLast (trieErase key st.candidates)).map (fun e => e.2.files)) ++ st.changeLists.map (fun u => u.files))) := by
        rw [hfc, hfp]
        exact hgoodB
      have haccP0 : ((trieInsert key cand2
            (trieInsert key.dropLast parent2 st.candidates)).map (fun e => e.2.files)).Perm
          (cand2.files :: parent2.files :: (trieErase key.dropLast (trieErase key st.candidates)).map (fun e => e.2.files)) := by
        refine ((trieInsert_perm (trieSorted_insert hsor)).map (fun e => e.2.files)).trans ?_
        simp only [List.map_cons]
        refine List.Perm.cons _ ?_
        have h2 : (trieErase key (trieInsert key.dropLast parent2 st.candidates)).Perm
            ((key.dropLast, parent2) :: trieErase key (trieErase key.dropLast st.candidates)) :=
          erase_insert_perm hsor (Ne.symm hkp)
        have h3 := h2.map (fun e => e.2.files)
        simp only [List.map_cons] at h3
        rw [trieErase_comm] at h3
        exact h3
      have hfinalP : (cand2.files :: parent2.files :: (((trieErase key.dropLast (trieErase key st.candidates)).map (fun e => e.2.files)) ++ st.changeLists.map (fun u => u.files))).Perm
          (((trieInsert key cand2 (trieInsert key.dropLast parent2 st.candidates)).map
            (fun e => e.2.files)) ++ st.changeLists.map (fun u => u.files)) := by
        have h4 := (haccP0.append_right (st.changeLists.map (fun u => u.files))).symm
        simp only [List.cons_append] at h4
        exact h4
      show goodFS input (((trieInsert key cand2
        (trieInsert key.dropLast parent2 st.candidates)).map (fun e => e.2.files)) ++ st.changeLists.map (fun u => u.files))
      exact goodFS_perm hfinalP hgoodC
    · subst hc
      subst hpcl
      have habs : trieErase key.dropLast st.candidates = st.candidates :=
        trieErase_of_absent (trieGet_none hpc)
      have hgoodB := goodFS_perm (List.Perm.swap candidate.files ∅
        (((trieErase key st.candidates).map (fun e => e.2.files)) ++ st.changeLists.map (fun u => u.files))) (goodFS_cons_empty hgoodA)
      have hgoodC : goodFS input (cand2.files :: parent2.files ::
          (((trieErase key st.candidates).map (fun e => e.2.files)) ++ st.changeLists.map (fun u => u.files))) := by
        rw [hfc, hfp]
        exact hgoodB
      have haccP0 : ((trieInsert key cand2 (trieInsert key.dropLast parent2
            (trieInsert key.dropLast ⟨key.dropLast, ∅, none⟩ st.candidates))).map
              (fun e => e.2.files)).Perm
          (cand2.files :: parent2.files :: (trieErase key st.candidates).map (fun e => e.2.files)) := by
        refine ((trieInsert_perm (trieSorted_insert (trieSorted_insert hsor))).map
          (fun e => e.2.files)).trans ?_
        simp only [List.map_cons]
        refine List.Perm.cons _ ?_
        have h2 : (trieErase key (trieInsert key.dropLast parent2
            (trieInsert key.dropLast ⟨key.dropLast, ∅, none⟩ st.candidates))).Perm
            ((key.dropLast, parent2) :: trieErase key (trieErase key.dropLast
              (trieInsert key.dropLast ⟨key.dropLast, ∅, none⟩ st.candidates))) :=
          erase_insert_perm (trieSorted_insert hsor) (Ne.symm hkp)
        rw [trieErase_insert_same, habs] at h2
        have h3 := h2.map (fun e => e.2.files)
        simp only [List.map_cons] at h3
        exact h3
      have hfinalP : (cand2.files :: parent2.files :: (((trieErase key st.candidates).map (fun e => e.2.files)) ++ st.changeLists.map (fun u => u.files))).Perm
          (((trieInsert key cand2 (trieInsert key.dropLast parent2
            (trieInsert key.dropLast ⟨key.dropLast, ∅, none⟩ st.candidates))).map
              (fun e => e.2.files)) ++ st.changeLists.map (fun u => u.files)) := by
        have h4 := (haccP0.append_right (st.changeLists.map (fun u => u.files))).symm
        simp only [List.cons_append] at h4
        exact h4
      show goodFS input (((trieInsert key cand2 (trieInsert key.dropLast parent2
        (trieInsert key.dropLast ⟨key.dropLast, ∅, none⟩ st.candidates))).map
          (fun e => e.2.files)) ++ st.changeLists.map (fun u => u.files))
      exact goodFS_perm hfinalP hgoodC
  | mergeStay candidate parent_cl parent2 cand2 merged cands1 hget hsub hpar hc1 hhco hmg hsz =>
    have hkp : key.dropLast ≠ key := key_of_par hpar
    rcases merged_of_have hhco hmg with ⟨cm, hmeq, _, _, hfp, hfc, _, _⟩
    have hmf : merged.files = parent_cl.files ∪ candidate.files := by
      rw [hmeq]
      simp only
      rw [hfp, hfc]
    have hstP : (st.candidates.map (fun e => e.2.files)).Perm
        (candidate.files :: (trieErase key st.candidates).map (fun e => e.2.files)) :=
      (mem_perm_erase hsor (trieGet_some hget)).map (fun e => e.2.files)
    have hp2 : goodFS input (st.candidates.map (fun e => e.2.files) ++
        st.changeLists.map (fun u => u.files)) := hp
    have hgoodA : goodFS input ((candidate.files :: (trieErase key st.candidates).map (fun e => e.2.files)) ++ st.changeLists.map (fun u => u.files)) :=
      goodFS_perm (hstP.append_right (st.changeLists.map (fun u => u.files))) hp2
    simp only [List.cons_append] at hgoodA
    rcases hc1 with ⟨hpc, hc⟩ | ⟨hpc, hc, hpcl⟩
    · subst hc
      have hmem : (key.dropLast, parent_cl) ∈ trieErase key st.candidates :=
        mem_trieErase.mpr ⟨trieGet_some hpc, hkp⟩
      have hstP2 : ((trieErase key st.candidates).map (fun e => e.2.files)).Perm
          (parent_cl.files :: (trieErase key.dropLast (trieErase key st.candidates)).map (fun e => e.2.files)) :=
        (mem_perm_erase (trieSorted_erase hsor) hmem).map (fun e => e.2.files)
      have hconsP : (((trieErase key st.candidates).map (fun e => e.2.files)) ++ st.changeLists.map (fun u => u.files)).Perm
          ((parent_cl.files :: (trieErase key.dropLast (trieErase key st.candidates)).map (fun e => e.2.files)) ++ st.changeLists.map (fun u => u.files)) :=
        hstP2.append_right (st.changeLists.map (fun u => u.files))
      simp only [List.cons_append] at hconsP
      have hgoodB := goodFS_perm (hconsP.cons candidate.files) hgoodA
      have hgoodC : goodFS input (merged.files :: (((trieErase key.dropLast (trieErase key st.candidates)).map (fun e => e.2.files)) ++ st.changeLists.map (fun u => u.files))) := by
        rw [hmf]
        exact goodFS_merge_head hgoodB
      have haccP0 : ((trieInsert key.dropLast merged (trieErase key st.candidates)).map
            (fun e => e.2.files)).Perm
          (merged.files :: (trieErase key.dropLast (trieErase key st.candidates)).map (fun e => e.2.files)) := by
        have h2 : (trieInsert key.dropLast merged (trieErase key st.candidates)).Perm
            ((key.dropLast, merged) :: trieErase key.dropLast (trieErase key st.candidates)) :=
          trieInsert_perm (trieSorted_erase hsor)
        have h3 := h2.map (fun e => e.2.files)
        simp only [List.map_cons] at h3
        exact h3
      have hfinalP : (merged.files :: (((trieErase key.dropLast (trieErase key st.candidates)).map (fun e => e.2.files)) ++ st.changeLists.map (fun u => u.files))).Perm
          (((trieInsert key.dropLast merged (trieErase key st.candidates)).map
            (fun e => e.2.files)) ++ st.changeLists.map (fun u => u.files)) := by
        have h4 := (haccP0.append_right (st.changeLists.map (fun u => u.files))).symm
        simp only [List.cons_append] at h4
        exact h4
      show goodFS input (((trieInsert key.dropLast merged (trieErase key st.candidates)).map
        (fun e => e.2.files)) ++ st.changeLists.map (fun u => u.files))
      exact goodFS_perm hfinalP hgoodC
    · subst hc
      subst hpcl
      have habs : trieErase key.dropLast st.candidates = st.candidates :=
        trieErase_of_absent (trieGet_none hpc)
      have hrw : trieErase key.dropLast (trieErase key
          (trieInsert key.dropLast ⟨key.dropLast, ∅, none⟩ st.candidates)) =
          trieErase key st.candidates := by
        rw [trieErase_comm, trieErase_insert_same, habs]
      have hgoodB := goodFS_perm (List.Perm.swap candidate.files ∅
        (((trieErase key st.candidates).map (fun e => e.2.files)) ++ st.changeLists.map (fun u => u.files))) (goodFS_cons_empty hgoodA)
      have hgoodC : goodFS input (merged.files :: (((trieErase key st.candidates).map (fun e => e.2.files)) ++ st.changeLists.map (fun u => u.files))) := by
        rw [hmf]
        exact goodFS_merge_head hgoodB
      have haccP0 : ((trieInsert key.dropLast merged (trieErase key
            (trieInsert key.dropLast ⟨key.dropLast, ∅, none⟩ st.candidates))).map
              (fun e => e.2.files)).Perm
          (merged.files :: (trieErase key st.candidates).map (fun e => e.2.files)) := by
        have h2 : (trieInsert key.dropLast merged (trieErase key
            (trieInsert key.dropLast ⟨key.dropLast, ∅, none⟩ st.candidates))).Perm
            ((key.dropLast, merged) :: trieErase key.dropLast (trieErase key
              (trieInsert key.dropLast ⟨key.dropLast, ∅, none⟩ st.candidates))) :=
          trieInsert_perm (trieSorted_erase (trieSorted_insert hsor))
        have h3 := h2.map (fun e => e.2.files)
        simp only [List.map_cons] at h3
        rw [hrw] at h3
        exact h3
      have hfinalP : (merged.files :: (((trieErase key st.candidates).map (fun e => e.2.files)) ++ st.changeLists.map (fun u => u.files))).Perm
          (((trieInsert key.dropLast merged (trieErase key
            (trieInsert key.dropLast ⟨key.dropLast, ∅, none⟩ st.candidates))).map
              (fun e => e.2.files)) ++ st.changeLists.map (fun u => u.files)) := by
        have h4 := (haccP0.append_right (st.changeLists.map (fun u => u.files))).symm
        simp only [List.cons_append] at h4
        exact h4
      show goodFS input (((trieInsert key.dropLast merged (trieErase key
        (trieInsert key.dropLast ⟨key.dropLast, ∅, none⟩ st.candidates))).map
          (fun e => e.2.files)) ++ st.changeLists.map (fun u => u.files))
      exact goodFS_perm hfinalP hgoodC
  | mergeEmit candidate parent_cl parent2 cand2 merged cands1 hget hsub hpar hc1 hhco hmg hsz =>
    have hkp : key.dropLast ≠ key := key_of_par hpar
    rcases merged_of_have hhco hmg with ⟨cm, hmeq, _, _, hfp, hfc, _, _⟩
    have hmf : merged.files = parent_cl.files ∪ candidate.files := by
      rw [hmeq]
      simp only
      rw [hfp, hfc]
    have hstP : (st.candidates.map (fun e => e.2.files)).Perm
        (candidate.files :: (trieErase key st.candidates).map (fun e => e.2.files)) :=
      (mem_perm_erase hsor (trieGet_some hget)).map (fun e => e.2.files)
    have hp2 : goodFS input (st.candidates.map (fun e => e.2.files) ++
        st.changeLists.map (fun u => u.files)) := hp
    have hgoodA : goodFS input ((candidate.files :: (trieErase key st.candidates).map (fun e => e.2.files)) ++ st.changeLists.map (fun u => u.files)) :=
      goodFS_perm (hstP.append_right (st.changeLists.map (fun u => u.files))) hp2
    simp only [List.cons_append] at hgoodA
    have hCL : (st.changeLists ++ [merged]).map (fun u => u.files) =
        (st.changeLists.map (fun u => u.files)) ++ [merged.files] := by
      rw [List.map_append]
      rfl
    rcases hc1 with ⟨hpc, hc⟩ | ⟨hpc, hc, hpcl⟩
    · subst hc
      have hmem : (key.dropLast, parent_cl) ∈ trieErase key st.candidates :=
        mem_trieErase.mpr ⟨trieGet_some hpc, hkp⟩
      have hstP2 : ((trieErase key st.candidates).map (fun e => e.2.files)).Perm
          (parent_cl.files :: (trieErase key.dropLast (trieErase key st.candidates)).map (fun e => e.2.files)) :=
        (mem_perm_erase (trieSorted_erase hsor) hmem).map (fun e => e.2.files)
      have hconsP : (((trieErase key st.candidates).map (fun e => e.2.files)) ++ st.changeLists.map (fun u => u.files)).Perm
          ((parent_cl.files :: (trieErase key.dropLast (trieErase key st.candidates)).map (fun e => e.2.files)) ++ st.changeLists.map (fun u => u.files)) :=
        hstP2.append_right (st.changeLists.map (fun u => u.files))
      simp only [List.cons_append] at hconsP
      have hgoodB := goodFS_perm (hconsP.cons candidate.files) hgoodA
      have hgoodC : goodFS input (merged.files :: (((trieErase key.dropLast (trieErase key st.candidates)).map (fun e => e.2.files)) ++ st.changeLists.map (fun u => u.files))) := by
        rw [hmf]
        exact goodFS_merge_head hgoodB
      have hfinalP : (merged.files :: (((trieErase key.dropLast (trieErase key st.candidates)).map (fun e => e.2.files)) ++ st.changeLists.map (fun u => u.files))).Perm
          (((trieErase key.dropLast (trieInsert key.dropLast merged
            (trieErase key st.candidates))).map (fun e => e.2.files)) ++
            (st.changeLists ++ [merged]).map (fun u => u.files)) := by
        rw [trieErase_insert_same, hCL, ← List.append_assoc]
        have h4 : ((((trieErase key.dropLast (trieErase key st.candidates)).map (fun e => e.2.files)) ++ st.changeLists.map (fun u => u.files)) ++ [merged.files]).Perm
            ([merged.files] ++ (((trieErase key.dropLast (trieErase key st.candidates)).map (fun e => e.2.files)) ++ st.changeLists.map (fun u => u.files))) := List.perm_append_comm
        exact (h4.symm).trans (List.Perm.refl _)
      show goodFS input (((trieErase key.dropLast (trieInsert key.dropLast merged
        (trieErase key st.candidates))).map (fun e => e.2.files)) ++
          (st.changeLists ++ [merged]).map (fun u => u.files))
      exact goodFS_perm hfinalP hgoodC
    · subst hc
      subst hpcl
      have habs : trieErase key.dropLast st.candidates = st.candidates :=
        trieErase_of_absent (trieGet_none hpc)
      have hrw : trieErase key.dropLast (trieErase key
          (trieInsert key.dropLast ⟨key.dropLast, ∅, none⟩ st.candidates)) =
          trieErase key st.candidates := by
        rw [trieErase_comm, trieErase_insert_same, habs]
      have hgoodB := goodFS_perm (List.Perm.swap candidate.files ∅
        (((trieErase key st.candidates).map (fun e => e.2.files)) ++ st.changeLists.map (fun u => u.files))) (goodFS_cons_empty hgoodA)
      have hgoodC : goodFS input (merged.files :: (((trieErase key st.candidates).map (fun e => e.2.files)) ++ st.changeLists.map (fun u => u.files))) := by
        rw [hmf]
        exact goodFS_merge_head hgoodB
      have hfinalP : (merged.files :: (((trieErase key st.candidates).map (fun e => e.2.files)) ++ st.changeLists.map (fun u => u.files))).Perm
          (((trieErase key.dropLast (trieInsert key.dropLast merged
            (trieErase key (trieInsert key.dropLast ⟨key.dropLast, ∅, none⟩
              st.candidates)))).map (fun e => e.2.files)) ++
            (st.changeLists ++ [merged]).map (fun u => u.files)) := by
        rw [trieErase_insert_same, hrw, hCL, ← List.append_assoc]
        have h4 : ((((trieErase key st.candidates).map (fun e => e.2.files)) ++ st.changeLists.map (fun u => u.files)) ++ [merged.files]).Perm
            ([merged.files] ++ (((trieErase key st.candidates).map (fun e => e.2.files)) ++ st.changeLists.map (fun u => u.files))) := List.perm_append_comm
        exact (h4.symm).trans (List.Perm.refl _)
      show goodFS input (((trieErase key.dropLast (trieInsert key.dropLast merged
        (trieErase key (trieInsert key.dropLast ⟨key.dropLast, ∅, none⟩
          st.candidates)))).map (fun e => e.2.files)) ++
            (st.changeLists ++ [merged]).map (fun u => u.files))
      exact goodFS_perm hfinalP hgoodC

theorem seed_files_perm : ∀ (files : List AffectedFile) (c : List (SplPath × ChangeList)),
    trieSorted c → (files.map (fun f => f.path)).Nodup →
    (∀ f ∈ files, ∀ e ∈ c, e.1 ≠ f.path) →
    ((files.foldl (fun c f => trieInsert f.path ⟨f.path, {f}, none⟩ c) c).map
      (fun e => e.2.files)).Perm
      (files.map (fun f => ({f} : Finset AffectedFile)) ++ c.map (fun e => e.2.files)) := by
  intro files
  induction files with
  | nil =>
    intro c _ _ _
    simp only [List.foldl_nil, List.map_nil, List.nil_append]
    exact List.Perm.refl _
  | cons f fs ih =>
    intro c hsor hnd hfresh
    simp only [List.map_cons, List.nodup_cons] at hnd
    have hfr2 : ∀ g ∈ fs, ∀ e ∈ trieInsert f.path ⟨f.path, {f}, none⟩ c, e.1 ≠ g.path := by
      intro g hg e he
      rcases mem_trieInsert he with h1 | h1
      · rw [h1]
        intro hc
        refine hnd.1 ?_
        have hc2 : f.path = g.path := hc
        rw [hc2]
        simp only [List.mem_map]
        exact ⟨g, hg, rfl⟩
      · exact hfresh g (List.mem_cons_of_mem f hg) e h1
    have hIH := ih (trieInsert f.path ⟨f.path, {f}, none⟩ c)
      (trieSorted_insert hsor) hnd.2 hfr2
    have hin2 : ((trieInsert f.path ⟨f.path, {f}, none⟩ c).map (fun e => e.2.files)).Perm
        (({f} : Finset AffectedFile) :: c.map (fun e => e.2.files)) := by
      have h2 : (trieInsert f.path ⟨f.path, {f}, none⟩ c).Perm
          ((f.path, (⟨f.path, {f}, none⟩ : ChangeList)) :: trieErase f.path c) :=
        trieInsert_perm hsor
      have h3 := h2.map (fun e => e.2.files)
      simp only [List.map_cons] at h3
      rw [trieErase_of_absent (fun e he => hfresh f (List.mem_cons_self f fs) e he)] at h3
      exact h3
    refine hIH.trans ?_
    have h4 := hin2.append_left (fs.map (fun g => ({g} : Finset AffectedFile)))
    refine h4.trans ?_
    simp only [List.map_cons, List.cons_append]
    exact List.perm_middle

theorem unionFS_singletons : ∀ files : List AffectedFile,
    unionFS (files.map (fun f => ({f} : Finset AffectedFile))) = files.toFinset := by
  intro files
  induction files with
  | nil => simp [unionFS]
  | cons f fs ih =>
    simp only [List.map_cons, unionFS, ih, List.toFinset_cons]
    rw [Finset.insert_eq]

theorem seed_partInv (files : List AffectedFile)
    (hnd : (files.map (fun f => f.path)).Nodup) :
    partInv files.toFinset ⟨seedCandidates files, []⟩ := by
  have hperm := seed_files_perm files [] (by simp [trieSorted]) hnd (by simp)
  simp only [List.map_nil, List.append_nil] at hperm
  have hgood : goodFS files.toFinset (files.map (fun f => ({f} : Finset AffectedFile))) := by
    refine ⟨?_, unionFS_singletons files⟩
    rw [List.pairwise_map]
    have hnd2 : files.Pairwise (fun a b => a.path ≠ b.path) := by
      rw [← List.pairwise_map (R := fun x y => x ≠ y)]
      exact hnd
    refine hnd2.imp ?_
    intro a b hab
    rw [Finset.disjoint_singleton]
    intro he
    exact hab (by rw [he])
  have hgood2 : goodFS files.toFinset
      ((seedCandidates files).map (fun e => e.2.files)) :=
    goodFS_perm hperm.symm hgood
  show goodFS files.toFinset ((seedCandidates files).map (fun e => e.2.files) ++
    ([] : List ChangeList).map (fun u => u.files))
  simp only [List.map_nil, List.append_nil]
  exact hgood2

/-- C1: on an input changeset whose file paths are non-empty and pairwise
distinct, the file sets of the units returned by `SplitCLs` are pairwise
disjoint and their union is exactly the input file set: every input file
appears in exactly one emitted unit. -/
theorem claim_C1_partition (db : OwnersDatabase) (a : Option String)
    (files : List AffectedFile) (units : List ChangeList)
    (h0 : ∀ f ∈ files, f.path ≠ [])
    (hnd : (files.map (fun f => f.path)).Nodup)
    (h : SplitCLs db a files = .ok units) :
    List.Pairwise (fun u v : ChangeList => Disjoint u.files v.files) units ∧
      unionFS (units.map (fun u => u.files)) = files.toFinset := by
  rcases splitCLs_ok h with ⟨st, b, hloop, hunits⟩
  have hinv : candsSorted st ∧ partInv files.toFinset st := by
    refine mergeLoop_preserve
      (P := fun s => candsSorted s ∧ partInv files.toFinset s) ?_ _ _ _ _ ?_ hloop
    · intro st1 ed key acc2 hp hpi
      exact ⟨step_candsSorted hpi hp.1, step_partInv hpi hp.1 hp.2⟩
    · exact ⟨seed_sorted files, seed_partInv files hnd⟩
  have hpart2 : goodFS files.toFinset (st.candidates.map (fun e => e.2.files) ++
      st.changeLists.map (fun u => u.files)) := hinv.2
  have hpermU : (st.candidates.map (fun e => e.2.files) ++
      st.changeLists.map (fun u => u.files)).Perm (units.map (fun u => u.files)) := by
    rw [hunits, List.map_append, List.map_map]
    exact List.perm_append_comm
  have hgoodU := goodFS_perm hpermU hpart2
  constructor
  · exact List.pairwise_map.mp hgoodU.1
  · exact hgoodU.2

theorem claim_C1_partition_witness :
    List.Pairwise (fun u v : ChangeList => Disjoint u.files v.files)
      [(⟨["b"], {fileBZ}, some {"alice"}⟩ : ChangeList),
       ⟨["a"], {fileAX, fileAY}, some {"alice"}⟩] ∧
    unionFS (([(⟨["b"], {fileBZ}, some {"alice"}⟩ : ChangeList),
       ⟨["a"], {fileAX, fileAY}, some {"alice"}⟩]).map (fun u => u.files)) =
      ([fileAX, fileAY, fileBZ] : List AffectedFile).toFinset :=
  claim_C1_partition dbAlice none [fileAX, fileAY, fileBZ]
    [⟨["b"], {fileBZ}, some {"alice"}⟩, ⟨["a"], {fileAX, fileAY}, some {"alice"}⟩]
    (by decide) (by decide) (by decide)

/-! Claim C3: determinism of the grouping. -/

theorem trieInsert_comm (k1 k2 : SplPath) (v1 v2 : ChangeList) (hne : k1 ≠ k2) :
    ∀ c : List (SplPath × ChangeList),
      trieInsert k1 v1 (trieInsert k2 v2 c) = trieInsert k2 v2 (trieInsert k1 v1 c) := by
  have hlt : pathLt k1 k2 = true ∨ pathLt k2 k1 = true := by
    rcases pathLt_total k1 k2 with h | h | h
    · exact absurd h hne
    · exact Or.inl h
    · exact Or.inr h
  intro c
  induction c with
  | nil =>
    rcases hlt with h | h
    · simp [trieInsert, hne, Ne.symm hne, h, pathLt_asymm h]
    · simp [trieInsert, hne, Ne.symm hne, h, pathLt_asymm h]
  | cons e rest ih =>
    rcases e with ⟨x, w⟩
    by_cases h1 : k1 = x
    · subst h1
      rcases hlt with h | h
      · simp [trieInsert, hne, Ne.symm hne, h, pathLt_asymm h, pathLt_irrefl]
      · simp [trieInsert, hne, Ne.symm hne, h, pathLt_asymm h, pathLt_irrefl]
    · by_cases h2 : k2 = x
      · subst h2
        rcases hlt with h | h
        · simp [trieInsert, hne, Ne.symm hne, h, pathLt_asymm h, pathLt_irrefl, h1]
        · simp [trieInsert, hne, Ne.symm hne, h, pathLt_asymm h, pathLt_irrefl, h1]
      · by_cases h3 : pathLt k1 x = true
        · by_cases h4 : pathLt k2 x = true
          · rcases hlt with h | h
            · simp [trieInsert, h1, h2, h3, h4, hne, Ne.symm hne, h, pathLt_asymm h]
            · simp [trieInsert, h1, h2, h3, h4, hne, Ne.symm hne, h, pathLt_asymm h]
          · have h5 : pathLt x k2 = true := by
              rcases pathLt_total k2 x with h6 | h6 | h6
              · exact absurd h6 h2
              · exact absurd h6 h4
              · exact h6
            have h6 : pathLt k1 k2 = true := pathLt_trans k1 x k2 h3 h5
            simp [trieInsert, h1, h2, h3, h4, h6, pathLt_asymm h6, hne, Ne.symm hne]
        · by_cases h4 : pathLt k2 x = true
          · have h5 : pathLt x k1 = true := by
              rcases pathLt_total k1 x with h6 | h6 | h6
              · exact absurd h6 h1
              · exact absurd h6 h3
              · exact h6
            have h6 : pathLt k2 k1 = true := pathLt_trans k2 x k1 h4 h5
            simp [trieInsert, h1, h2, h3, h4, h6, pathLt_asymm h6, hne, Ne.symm hne]
          · simp [trieInsert, h1, h2, h3, h4, ih]

theorem seedCandidates_perm (files1 files2 : List AffectedFile)
    (hperm : files1.Perm files2) (hnd : (files1.map (fun f => f.path)).Nodup) :
    seedCandidates files1 = seedCandidates files2 := by
  rw [seedCandidates, seedCandidates]
  refine hperm.foldl_eq' ?_ []
  intro x hx y hy z
  by_cases hxy : x = y
  · rw [hxy]
  · have hpne : x.path ≠ y.path := by
      intro he
      exact hxy (List.inj_on_of_nodup_map hnd hx hy he)
    exact trieInsert_comm y.path x.path ⟨y.path, {y}, none⟩ ⟨x.path, {x}, none⟩
      (fun he => hpne he.symm) z

/-- C3: given the same oracle and author, any two presentation orders of
the same input file set (with pairwise-distinct paths) produce the same
partition: the seeding trie is order-independent and the rest of
`SplitCLs` is a deterministic function of it.  Reviewer selection happens
outside `SplitCLs` and does not influence the grouping. -/
theorem claim_C3_determinism (db : OwnersDatabase) (a : Option String)
    (files1 files2 : List AffectedFile)
    (hperm : files1.Perm files2)
    (hnd : (files1.map (fun f => f.path)).Nodup) :
    SplitCLs db a files1 = SplitCLs db a files2 := by
  rw [SplitCLs, SplitCLs, seedCandidates_perm files1 files2 hperm hnd]

theorem claim_C3_determinism_witness :
    SplitCLs dbAlice none [fileAX, fileAY, fileBZ] =
      SplitCLs dbAlice none [fileBZ, fileAY, fileAX] :=
  claim_C3_determinism dbAlice none [fileAX, fileAY, fileBZ] [fileBZ, fileAY, fileAX]
    (by decide) (by decide)

/-! Claim C9: termination of the merge loop. -/

theorem mem_ancestorsOf {q p : SplPath} : q ∈ ancestorsOf p ↔ q ≠ [] ∧ q <+: p := by
  rw [ancestorsOf]
  simp only [List.mem_toFinset, List.mem_map, List.mem_range]
  constructor
  · rintro ⟨i, hi, rfl⟩
    constructor
    · have hlen : (p.take (i + 1)).length = i + 1 := by
        rw [List.length_take]
        omega
      intro he
      rw [he] at hlen
      simp at hlen
    · exact List.take_prefix _ _
  · rintro ⟨hne, hpre⟩
    have h1 : q.length ≤ p.length := hpre.length_le
    have h2 : 0 < q.length := List.length_pos.mpr hne
    refine ⟨q.length - 1, by omega, ?_⟩
    have h3 : q.length - 1 + 1 = q.length := by omega
    rw [h3]
    exact (List.prefix_iff_eq_take.mp hpre).symm

theorem mem_anchorClosure {q : SplPath} :
    ∀ {c : List (SplPath × ChangeList)},
      q ∈ anchorClosure c ↔ ∃ e ∈ c, q ∈ ancestorsOf e.1 := by
  intro c
  induction c with
  | nil =>
    constructor
    · intro h
      exact absurd h (Finset.not_mem_empty q)
    · rintro ⟨e, he, h⟩
      exact absurd he (List.not_mem_nil e)
  | cons e rest ih =>
    constructor
    · intro h
      rw [anchorClosure, List.foldr_cons] at h
      rcases Finset.mem_union.mp h with h | h
      · exact ⟨e, List.mem_cons_self e rest, h⟩
      · rcases ih.mp h with ⟨f, hf, hq⟩
        exact ⟨f, List.mem_cons_of_mem e hf, hq⟩
    · rintro ⟨f, hf, hq⟩
      rw [anchorClosure, List.foldr_cons]
      rcases List.mem_cons.mp hf with h | h
      · exact Finset.mem_union_left _ (h ▸ hq)
      · exact Finset.mem_union_right _ (ih.mpr ⟨f, h, hq⟩)

theorem ancestorsOf_dropLast {p : SplPath} : ancestorsOf p.dropLast ⊆ ancestorsOf p := by
  intro q hq
  rcases mem_ancestorsOf.mp hq with ⟨hne, hpre⟩
  exact mem_ancestorsOf.mpr ⟨hne, hpre.trans (List.dropLast_prefix p)⟩

theorem length_le_one_eq {α : Type} {l : List α} (h : l.length ≤ 1) {x y : α}
    (hx : x ∈ l) (hy : y ∈ l) : x = y := by
  cases l with
  | nil => exact absurd hx (List.not_mem_nil x)
  | cons a t =>
    cases t with
    | nil =>
      have h1 : x = a := by simpa using hx
      have h2 : y = a := by simpa using hy
      rw [h1, h2]
    | cons b t2 =>
      exfalso
      have h2 := h
      simp only [List.length_cons] at h2
      omega

/-- A candidate with sub-candidate count zero has no strict descendant in
the trie: any entry whose key extends the candidate key is the candidate
itself. -/
theorem no_descendants {c : List (SplPath × ChangeList)} {key : SplPath} {v : ChangeList}
    (hmem : (key, v) ∈ c) (hsub : subCandidateCount c key = 0) :
    ∀ e ∈ c, key <+: e.1 → e = (key, v) := by
  intro e he hpre
  rw [subCandidateCount, trieKeysWith, List.length_map] at hsub
  have hlen : (c.filter (fun e => key.isPrefixOf e.1)).length ≤ 1 := by omega
  have hx : e ∈ c.filter (fun e => key.isPrefixOf e.1) :=
    List.mem_filter.mpr ⟨he, by simpa [List.isPrefixOf_iff_prefix] using hpre⟩
  have hy : (key, v) ∈ c.filter (fun e => key.isPrefixOf e.1) :=
    List.mem_filter.mpr ⟨hmem, by simp [List.isPrefixOf_iff_prefix]⟩
  exact length_le_one_eq hlen hx hy

theorem closure_sub_of_keys {c : List (SplPath × ChangeList)} {st : SplitState}
    {key : SplPath}
    (hkey : ∃ v, (key, v) ∈ st.candidates)
    (hkeys : ∀ e ∈ c, e.1 = key ∨ e.1 = key.dropLast ∨ e ∈ st.candidates) :
    anchorClosure c ⊆ anchorClosure st.candidates := by
  intro q hq
  rcases mem_anchorClosure.mp hq with ⟨e, he, hqa⟩
  rcases hkey with ⟨v, hv⟩
  rcases hkeys e he with h | h | h
  · exact mem_anchorClosure.mpr ⟨(key, v), hv, h ▸ hqa⟩
  · exact mem_anchorClosure.mpr ⟨(key, v), hv, ancestorsOf_dropLast (h ▸ hqa)⟩
  · exact mem_anchorClosure.mpr ⟨e, h, hqa⟩

theorem stay_entries {st : SplitState} {key : SplPath} {parent_cl merged : ChangeList}
    {cands1 : List (SplPath × ChangeList)}
    (hc1 : (trieGet st.candidates key.dropLast = some parent_cl ∧ cands1 = st.candidates) ∨
           (trieGet st.candidates key.dropLast = none ∧
            cands1 = trieInsert key.dropLast ⟨key.dropLast, ∅, none⟩ st.candidates ∧
            parent_cl = ⟨key.dropLast, ∅, none⟩)) :
    ∀ e ∈ trieInsert key.dropLast merged (trieErase key cands1),
      e.1 = key.dropLast ∨ (e ∈ st.candidates ∧ e.1 ≠ key) := by
  intro e he
  rcases mem_trieInsert he with h | h
  · exact Or.inl (by rw [h])
  · rcases mem_trieErase.mp h with ⟨h2, hne⟩
    rcases cands1_entries hc1 e h2 with h3 | h3
    · exact Or.inl (by rw [h3])
    · exact Or.inr ⟨h3, hne⟩

/-- The key of a merged-away candidate is gone from the anchor closure:
every remaining entry is at the parent key (strictly shorter) or is an
unrelated old entry that the zero sub-candidate count forbids from
extending the key. -/
theorem key_not_in_closure {st : SplitState} {key : SplPath} {candidate : ChangeList}
    {c2 : List (SplPath × ChangeList)}
    (hmem : (key, candidate) ∈ st.candidates)
    (hsub : subCandidateCount st.candidates key = 0)
    (hkeyne : key ≠ [])
    (hkeys : ∀ e ∈ c2, e.1 = key.dropLast ∨ (e ∈ st.candidates ∧ e.1 ≠ key)) :
    key ∉ anchorClosure c2 := by
  intro hq
  rcases mem_anchorClosure.mp hq with ⟨e, he, hqa⟩
  rcases mem_ancestorsOf.mp hqa with ⟨h0, hpre⟩
  rcases hkeys e he with h | ⟨h, hne⟩
  · have h1 : key.length ≤ e.1.length := hpre.length_le
    rw [h, List.length_dropLast] at h1
    have h2 : 0 < key.length := List.length_pos.mpr hkeyne
    omega
  · exact hne (congrArg Prod.fst (no_descendants hmem hsub e h hpre))

/-- The effect of one `processItem` step on the anchor closure: it never
grows, and the first step of a pass that reports a merge strictly shrinks
it (the merged child key disappears and can never be recreated). -/
theorem step_anchor {db : OwnersDatabase} {a : Option String} {st : SplitState}
    {ed : Bool} {key : SplPath} {acc2 : SplitState × Bool}
    (hout : StepOutcome db a st ed key acc2) :
    anchorClosure acc2.1.candidates ⊆ anchorClosure st.candidates ∧
      (ed = false → acc2.2 = true →
        anchorClosure acc2.1.candidates ⊂ anchorClosure st.candidates) := by
  cases hout with
  | skip =>
    refine ⟨Finset.Subset.refl _, ?_⟩
    intro hed hacc
    have hacc2 : ed = true := hacc
    rw [hed] at hacc2
    exact absurd hacc2 (by simp)
  | reject candidate parent_cl parent2 cand2 cands1 hget hsub hpar hc1 hhco =>
    constructor
    · refine closure_sub_of_keys ⟨candidate, trieGet_some hget⟩ ?_
      intro e he
      rcases mem_trieInsert he with h | h
      · exact Or.inl (by rw [h])
      · rcases mem_trieInsert h with h2 | h2
        · exact Or.inr (Or.inl (by rw [h2]))
        · rcases cands1_entries hc1 e h2 with h3 | h3
          · exact Or.inr (Or.inl (by rw [h3]))
          · exact Or.inr (Or.inr h3)
    · intro hed hacc
      have hacc2 : ed = true := hacc
      rw [hed] at hacc2
      exact absurd hacc2 (by simp)
  | mergeStay candidate parent_cl parent2 cand2 merged cands1 hget hsub hpar hc1 hhco hmg hsz =>
    have hmem := trieGet_some hget
    have hkeyne : key ≠ [] := by
      intro h
      rw [h] at hpar
      exact hpar rfl
    have hkeys : ∀ e ∈ trieInsert key.dropLast merged (trieErase key cands1),
        e.1 = key.dropLast ∨ (e ∈ st.candidates ∧ e.1 ≠ key) := stay_entries hc1
    have hsubset : anchorClosure (trieInsert key.dropLast merged (trieErase key cands1)) ⊆
        anchorClosure st.candidates := by
      refine closure_sub_of_keys ⟨candidate, hmem⟩ ?_
      intro e he
      rcases hkeys e he with h | ⟨h, h2⟩
      · exact Or.inr (Or.inl h)
      · exact Or.inr (Or.inr h)
    refine ⟨hsubset, ?_⟩
    intro h1 h2
    rw [Finset.ssubset_iff_of_subset hsubset]
    refine ⟨key, ?_, ?_⟩
    · exact mem_anchorClosure.mpr
        ⟨(key, candidate), hmem, mem_ancestorsOf.mpr ⟨hkeyne, List.prefix_refl key⟩⟩
    · exact key_not_in_closure hmem hsub hkeyne hkeys
  | mergeEmit candidate parent_cl parent2 cand2 merged cands1 hget hsub hpar hc1 hhco hmg hsz =>
    have hmem := trieGet_some hget
    have hkeyne : key ≠ [] := by
      intro h
      rw [h] at hpar
      exact hpar rfl
    have hkeys : ∀ e ∈ trieErase key.dropLast
        (trieInsert key.dropLast merged (trieErase key cands1)),
        e.1 = key.dropLast ∨ (e ∈ st.candidates ∧ e.1 ≠ key) := by
      intro e he
      rcases mem_trieErase.mp he with ⟨h2, h3⟩
      exact stay_entries hc1 e h2
    have hsubset : anchorClosure (trieErase key.dropLast
        (trieInsert key.dropLast merged (trieErase key cands1))) ⊆
        anchorClosure st.candidates := by
      refine closure_sub_of_keys ⟨candidate, hmem⟩ ?_
      intro e he
      rcases hkeys e he with h | ⟨h, h2⟩
      · exact Or.inr (Or.inl h)
      · exact Or.inr (Or.inr h)
    refine ⟨hsubset, ?_⟩
    intro h1 h2
    rw [Finset.ssubset_iff_of_subset hsubset]
    refine ⟨key, ?_, ?_⟩
    · exact mem_anchorClosure.mpr
        ⟨(key, candidate), hmem, mem_ancestorsOf.mpr ⟨hkeyne, List.prefix_refl key⟩⟩
    · exact key_not_in_closure hmem hsub hkeyne hkeys

/-- The running invariant of one pass, relative to the state at the start
of the pass: the anchor closure never grows, and once the `edited` flag is
set it has strictly shrunk. -/
def passInv (st : SplitState) (acc : SplitState × Bool) : Prop :=
  anchorClosure acc.1.candidates ⊆ anchorClosure st.candidates ∧
    (acc.2 = true → anchorClosure acc.1.candidates ⊂ anchorClosure st.candidates)

theorem passInv_step {db : OwnersDatabase} {a : Option String} {st : SplitState} :
    ∀ (acc : SplitState × Bool) (key : SplPath) (acc2 : SplitState × Bool),
      passInv st acc → processItem db a acc key = .ok acc2 → passInv st acc2 := by
  intro acc key acc2 hp h
  rcases acc with ⟨s, ed⟩
  have ha := step_anchor (processItem_spec h)
  rcases hp with ⟨hp1, hp2⟩
  constructor
  · exact ha.1.trans hp1
  · intro hacc
    cases ed with
    | false => exact ssubset_of_ssubset_of_subset (ha.2 rfl hacc) hp1
    | true => exact ssubset_of_subset_of_ssubset ha.1 (hp2 rfl)

/-- A pass that reports a merge strictly shrinks the anchor closure. -/
theorem runPass_anchor {db : OwnersDatabase} {a : Option String} {st st2 : SplitState}
    {b2 : Bool} (h : runPass db a st = .ok (st2, b2)) (hb : b2 = true) :
    anchorClosure st2.candidates ⊂ anchorClosure st.candidates := by
  rw [runPass] at h
  have hinit : passInv st (st, false) :=
    ⟨Finset.Subset.refl _, fun hf => absurd hf (by simp)⟩
  have hinv := foldlM_preserve (P := passInv st) passInv_step
    (st.candidates.map (fun e => e.1)) (st, false) (st2, b2) hinit h
  exact hinv.2 hb

/-- With more fuel than the cardinality of the anchor closure, the merge
loop always reaches its fixed point. -/
theorem mergeLoop_term {db : OwnersDatabase} {a : Option String} :
    ∀ (fuel : Nat) (st st2 : SplitState) (b2 : Bool),
      (anchorClosure st.candidates).card < fuel →
      mergeLoop db a fuel st = .ok (st2, b2) → b2 = true := by
  intro fuel
  induction fuel with
  | zero =>
    intro st st2 b2 hcard h
    omega
  | succ n ih =>
    intro st st2 b2 hcard h
    rw [mergeLoop] at h
    cases h1 : runPass db a st with
    | error e => rw [h1] at h; exact absurd h (by simp)
    | ok r =>
      rw [h1] at h
      rcases r with ⟨st1, e1⟩
      dsimp only at h
      cases e1 with
      | false =>
        simp only [Bool.false_eq_true, if_false] at h
        simp only [Except.ok.injEq, Prod.mk.injEq] at h
        exact h.2.symm
      | true =>
        simp only [if_true] at h
        have hlt : (anchorClosure st1.candidates).card <
            (anchorClosure st.candidates).card :=
          Finset.card_lt_card (runPass_anchor h1 rfl)
        exact ih st1 st2 b2 (by omega) h

/-- C9 (corrected), counterexample to the strict-decrease part: a single
merge step need not reduce the number of candidate entries in the trie.
Starting from the one-entry trie for `a/b.txt`, `processItem` performs a
merge (the returned `edited` flag is `true`), yet the trie still has
exactly one entry afterwards: the child was removed but the freshly
created parent candidate `a` took its place. -/
theorem claim_C9_counterexample :
    (processItem dbAlice none
        (⟨[(["a", "b.txt"], ⟨["a", "b.txt"], {fileAB10}, none⟩)], []⟩, false)
        ["a", "b.txt"]).map
        (fun r => (r.1.candidates.length, r.2)) = Except.ok (1, true) ∧
      [(["a", "b.txt"], (⟨["a", "b.txt"], {fileAB10}, none⟩ : ChangeList))].length = 1 := by
  constructor
  · decide
  · decide

/-- C9 (amended): the bottom-up merge loop terminates on every finite
input — run with fuel `splitFuel` (one more than the cardinality of the
anchor closure of the trie, the bound used by `SplitCLs` itself), it
always genuinely reaches the fixed point where a full pass makes no merge,
never exhausting the fuel.  The decreasing measure is the anchor closure
of the candidate trie, not the number of candidate entries: an individual
merge step keeps the entry count unchanged whenever it has to create the
parent candidate it merges into. -/
theorem claim_C9_amended (db : OwnersDatabase) (a : Option String)
    (st st2 : SplitState) (b2 : Bool)
    (h : mergeLoop db a (splitFuel st.candidates) st = .ok (st2, b2)) :
    b2 = true :=
  mergeLoop_term (splitFuel st.candidates) st st2 b2
    (by rw [splitFuel]; exact Nat.lt_succ_self _) h

/-- The fixed point the merge loop reaches on the single input file
`a/b.txt` under the all-alice oracle: everything merged into the parent
candidate at `a`. -/
def c9Final : SplitState :=
  ⟨[(["a"], ⟨["a"], {fileAB10}, some {"alice"}⟩)], []⟩

theorem claim_C9_amended_witness :
    mergeLoop dbAlice none
        (splitFuel (SplitState.mk (seedCandidates [fileAB10]) []).candidates)
        ⟨seedCandidates [fileAB10], []⟩ = Except.ok (c9Final, true) ∧ true = true :=
  ⟨by decide,
   claim_C9_amended dbAlice none ⟨seedCandidates [fileAB10], []⟩ c9Final true (by decide)⟩
